import Mathlib

/-!
Verification of the openstreetmap extension's pathfinding, movement and
projection logic (src/lib/libraries/extensions/openstreetmap/index.js).

The JavaScript classes are shallowly embedded:
* numbers are idealised as real numbers (`ℝ`);
* `Date.now()` readings become explicit `now : ℝ` arguments;
* mutation of `this` and of the sprite becomes explicit state passing:
  a method returns its JS return value together with the updated state;
* a JS `Map` becomes an association list with `mapSet` / `List.lookup`,
  which reproduces `Map.set` (replace in place, else append) and `Map.get`;
* a JS `Set` of ids becomes a duplicate-free list in insertion order;
* `Infinity` in the score maps becomes `⊤` in `WithTop ℝ`, whose order
  agrees with the JavaScript comparisons performed by the code;
* the unbounded `while` loop of `findPath` and the `while` loop of
  `reconstructPath` are embedded with an explicit step count; the
  driver takes the least sufficient count when one exists and returns
  `none` (divergence) otherwise, so `some` results are exactly the
  results of terminating runs.
-/

/-! ## Sprite positions -/

/-- A sprite position, the mutable `x`/`y` pair the movement code updates
via `sprite.setXY`. -/
structure SpritePos where
  x : ℝ
  y : ℝ

/-! ## PreciseMovementController -/

/-- State of `PreciseMovementController` (constructor fields). -/
structure PreciseMovementController where
  startTime : ℝ
  lastUpdateTime : ℝ
  lastPosition : SpritePos
  targetSpeed : ℝ
  accumulatedError : ℝ
  isMoving : Bool
  updateInterval : ℝ

/-- The `PreciseMovementController` constructor. -/
def mkPreciseMovementController : PreciseMovementController where
  startTime := 0
  lastUpdateTime := 0
  lastPosition := ⟨0, 0⟩
  targetSpeed := 0
  accumulatedError := 0
  isMoving := false
  updateInterval := 33.33

/-- `PreciseMovementController.startMovement`. -/
def startMovement (c : PreciseMovementController) (startX startY speed now : ℝ) :
    PreciseMovementController :=
  { c with
    startTime := now
    lastUpdateTime := now
    lastPosition := ⟨startX, startY⟩
    targetSpeed := speed
    accumulatedError := 0
    isMoving := true }

/-- `PreciseMovementController.calculateNextTarget`. -/
noncomputable def calculateNextTarget (currentX currentY targetX targetY stepDistance : ℝ) :
    SpritePos :=
  let dx := targetX - currentX
  let dy := targetY - currentY
  let totalDistance := Real.sqrt (dx * dx + dy * dy)
  if totalDistance ≤ stepDistance then ⟨targetX, targetY⟩
  else
    let directionX := dx / totalDistance
    let directionY := dy / totalDistance
    ⟨currentX + directionX * stepDistance, currentY + directionY * stepDistance⟩

/-- `PreciseMovementController.updateMovement`.  Returns the JS boolean result
together with the updated controller state and sprite position. -/
noncomputable def updateMovement (c : PreciseMovementController) (sprite : SpritePos)
    (finalTargetX finalTargetY speed timeScale metersPerPixel now : ℝ) :
    Bool × PreciseMovementController × SpritePos :=
  if c.isMoving then
    let deltaTime := now - c.lastUpdateTime
    if deltaTime < c.updateInterval then (false, c, sprite)
    else
      let dx := finalTargetX - sprite.x
      let dy := finalTargetY - sprite.y
      let remainingPixels := Real.sqrt (dx * dx + dy * dy)
      let remainingMeters := remainingPixels * metersPerPixel
      if remainingMeters < 0.01 then
        (true, { c with isMoving := false }, ⟨finalTargetX, finalTargetY⟩)
      else
        let timeElapsedSeconds := deltaTime / 1000
        let distanceToMoveMeters := speed * timeScale * timeElapsedSeconds
        let distanceToMovePixels := distanceToMoveMeters / metersPerPixel
        let nextTarget := calculateNextTarget sprite.x sprite.y finalTargetX finalTargetY
          (distanceToMovePixels + c.accumulatedError)
        let actualDx := nextTarget.x - sprite.x
        let actualDy := nextTarget.y - sprite.y
        let actualDistance := Real.sqrt (actualDx * actualDx + actualDy * actualDy)
        let intendedDistance := distanceToMovePixels
        (false,
          { c with
            accumulatedError := intendedDistance - actualDistance
            lastUpdateTime := now
            lastPosition := nextTarget },
          nextTarget)
  else (false, c, sprite)

/-- `PreciseMovementController.getCurrentSpeed`. -/
noncomputable def getCurrentSpeed (c : PreciseMovementController) (metersPerPixel now : ℝ) : ℝ :=
  if c.isMoving then
    let deltaTime := (now - c.startTime) / 1000
    if deltaTime = 0 then 0
    else
      let dx := c.lastPosition.x - c.lastPosition.x
      let dy := c.lastPosition.y - c.lastPosition.y
      let distancePixels := Real.sqrt (dx * dx + dy * dy)
      let distanceMeters := distancePixels * metersPerPixel
      distanceMeters / deltaTime
  else 0

/-! ## PathMovementController -/

/-- State of `PathMovementController`. -/
structure PathMovementController where
  isMoving : Bool
  pathNodes : List SpritePos
  currentTargetIndex : ℕ
  preciseMover : PreciseMovementController

/-- The `PathMovementController` constructor. -/
def mkPathMovementController : PathMovementController where
  isMoving := false
  pathNodes := []
  currentTargetIndex := 0
  preciseMover := mkPreciseMovementController

/-- `PathMovementController.startPathMovement`. -/
def startPathMovement (c : PathMovementController) (pathNodeCoordinates : List SpritePos)
    (speed : ℝ) : Bool × PathMovementController :=
  if pathNodeCoordinates.length = 0 then (false, c)
  else
    (true,
      { c with
        pathNodes := pathNodeCoordinates
        currentTargetIndex := 0
        isMoving := true })

/-- `PathMovementController.updatePathMovement`. -/
noncomputable def updatePathMovement (c : PathMovementController) (sprite : SpritePos)
    (speed timeScale metersPerPixel now : ℝ) : Bool × PathMovementController × SpritePos :=
  if c.isMoving = false ∨ c.pathNodes.length ≤ c.currentTargetIndex then (true, c, sprite)
  else
    let currentTarget := c.pathNodes.getD c.currentTargetIndex ⟨0, 0⟩
    let mover :=
      if c.preciseMover.isMoving then c.preciseMover
      else startMovement c.preciseMover sprite.x sprite.y speed now
    let step := updateMovement mover sprite currentTarget.x currentTarget.y
      speed timeScale metersPerPixel now
    let reachedCurrentTarget := step.1
    if reachedCurrentTarget then
      let idx := c.currentTargetIndex + 1
      if idx < c.pathNodes.length then
        (false,
          { c with currentTargetIndex := idx, preciseMover := mkPreciseMovementController },
          step.2.2)
      else
        (true,
          { c with currentTargetIndex := idx, isMoving := false, preciseMover := step.2.1 },
          step.2.2)
    else (false, { c with preciseMover := step.2.1 }, step.2.2)

/-- `PathMovementController.reset`. -/
def PathMovementController.reset (_c : PathMovementController) : PathMovementController :=
  mkPathMovementController

/-! ## Projection functions of Scratch3OpenStreetMapBlocks -/

/-- The tile-map fields the projection methods read from `this.tileMap`. -/
structure TileMapState where
  centerLatitude : ℝ
  centerLongitude : ℝ
  currentZoom : ℤ

/-- Model of JavaScript's `Number(x.toFixed(6))`: round to six decimal places. -/
noncomputable def toFixed6 (x : ℝ) : ℝ := (round (x * 1000000) : ℤ) / 1000000

/-- `Scratch3OpenStreetMapBlocks.convertLatLngToScratch` (geographic → plane). -/
noncomputable def convertLatLngToScratch (tm : TileMapState) (latitude longitude : ℝ) :
    ℝ × ℝ :=
  let worldWidth : ℝ := 256 * 2 ^ tm.currentZoom
  let centerPixelX := (tm.centerLongitude + 180) / 360 * worldWidth
  let centerSinLatitude := Real.sin (tm.centerLatitude * Real.pi / 180)
  let centerPixelY :=
    (0.5 - Real.log ((1 + centerSinLatitude) / (1 - centerSinLatitude)) / (4 * Real.pi)) *
      worldWidth
  let targetPixelX := (longitude + 180) / 360 * worldWidth
  let targetSinLatitude := Real.sin (latitude * Real.pi / 180)
  let targetPixelY :=
    (0.5 - Real.log ((1 + targetSinLatitude) / (1 - targetSinLatitude)) / (4 * Real.pi)) *
      worldWidth
  (targetPixelX - centerPixelX, centerPixelY - targetPixelY)

/-- `Scratch3OpenStreetMapBlocks.getScratchCoordinateLocation` (plane → geographic);
returns `(latitude, longitude)`, each rounded by `toFixed(6)` as in the source. -/
noncomputable def getScratchCoordinateLocation (tm : TileMapState) (scratchX scratchY : ℝ) :
    ℝ × ℝ :=
  let worldWidth : ℝ := 256 * 2 ^ tm.currentZoom
  let centerPixelX := (tm.centerLongitude + 180) / 360 * worldWidth
  let centerSinLatitude := Real.sin (tm.centerLatitude * Real.pi / 180)
  let centerPixelY :=
    (0.5 - Real.log ((1 + centerSinLatitude) / (1 - centerSinLatitude)) / (4 * Real.pi)) *
      worldWidth
  let targetPixelX := centerPixelX + scratchX
  let targetPixelY := centerPixelY - scratchY
  let longitude := targetPixelX / worldWidth * 360 - 180
  let latitudeRad := Real.pi * (1 - 2 * (targetPixelY / worldWidth))
  let latitude := Real.arctan (Real.sinh latitudeRad) * 180 / Real.pi
  (toFixed6 latitude, toFixed6 longitude)

/-- `Scratch3OpenStreetMapBlocks.getScratchCoordinateLatitude` (plane → latitude). -/
noncomputable def getScratchCoordinateLatitude (tm : TileMapState) (scratchX scratchY : ℝ) :
    ℝ :=
  let worldWidth : ℝ := 256 * 2 ^ tm.currentZoom
  let centerPixelX := (tm.centerLongitude + 180) / 360 * worldWidth
  let centerSinLatitude := Real.sin (tm.centerLatitude * Real.pi / 180)
  let centerPixelY :=
    (0.5 - Real.log ((1 + centerSinLatitude) / (1 - centerSinLatitude)) / (4 * Real.pi)) *
      worldWidth
  let targetPixelX := centerPixelX + scratchX
  let targetPixelY := centerPixelY - scratchY
  let latitudeRad := Real.pi * (1 - 2 * (targetPixelY / worldWidth))
  let latitude := Real.arctan (Real.sinh latitudeRad) * 180 / Real.pi
  toFixed6 latitude

/-- `Scratch3OpenStreetMapBlocks.calculateDistance` (Hubeny's ellipsoidal formula).
The `try`/`catch` wrapper in the source can only catch exceptions, and none of
the numeric operations involved throws, so the method is its formula. -/
noncomputable def calculateDistance (lat1 lon1 lat2 lon2 : ℝ) : ℝ :=
  let radLat1 := Real.pi * lat1 / 180
  let radLon1 := Real.pi * lon1 / 180
  let radLat2 := Real.pi * lat2 / 180
  let radLon2 := Real.pi * lon2 / 180
  let latDiff := radLat2 - radLat1
  let lonDiff := radLon2 - radLon1
  let e2 : ℝ := 0.00669438
  let a : ℝ := 6378137
  let avgLat := (radLat1 + radLat2) / 2
  let sinLat := Real.sin avgLat
  let W := Real.sqrt (1 - e2 * sinLat * sinLat)
  let M := a * (1 - e2) / (W * W * W)
  let N := a / W
  Real.sqrt ((M * latDiff) ^ 2 + (N * Real.cos avgLat * lonDiff) ^ 2)

/-- `Scratch3OpenStreetMapBlocks.getMetersPerPixel`. -/
noncomputable def getMetersPerPixel (latitude : ℝ) (zoom : ℤ) : ℝ :=
  let earthCircumference : ℝ := 40075016.686
  let latitudeRadians := latitude * Real.pi / 180
  earthCircumference * Real.cos latitudeRadians / 2 ^ (zoom + 8)

/-! ## AStarPathfinder

Node ids (JS numbers or strings) are embedded as natural numbers.  The JS
`Map`s become association lists in insertion order, JS `Set`s become
duplicate-free lists in insertion order, and `Infinity` in the score maps
becomes `⊤ : WithTop ℝ`, whose strict order agrees with every comparison
the code performs (`x < Infinity` true for finite `x`, `Infinity < y`
false, and a comparison against a missing entry — JS `undefined` — false).
-/

/-- A node record `{id, x, y}`. -/
structure Node where
  id : ℕ
  x : ℝ
  y : ℝ

/-- A directed adjacency entry `{to, distance}`. -/
structure Link where
  «to» : ℕ
  distance : ℝ

/-- The `AStarPathfinder` instance state: the node map and the adjacency map. -/
structure AStarPathfinder where
  nodes : List (ℕ × Node)
  links : List (ℕ × List Link)

/-- The `AStarPathfinder` constructor: empty maps. -/
def mkAStarPathfinder : AStarPathfinder where
  nodes := []
  links := []

/-- JS `Map.prototype.set` on an association list: replace the value in
place when the key is present, else append the binding. -/
def mapSet {α : Type} (m : List (ℕ × α)) (k : ℕ) (v : α) : List (ℕ × α) :=
  if (m.lookup k).isSome then
    m.map fun kv => if kv.1 = k then (k, v) else kv
  else m ++ [(k, v)]

/-- `AStarPathfinder.setNodes`: clear the node map, then `Map.set` each
`[id, x, y]` triple in order (duplicate ids overwrite). -/
def setNodes (P : AStarPathfinder) (nodeList : List (ℕ × ℝ × ℝ)) : AStarPathfinder :=
  { P with nodes := nodeList.foldl (fun m t => mapSet m t.1 ⟨t.1, t.2.1, t.2.2⟩) [] }

/-- One `links.get(f).push({to := t, distance := d})` with the
get-or-initialise pattern of `setLinks`. -/
def addDirectedLink (m : List (ℕ × List Link)) (f t : ℕ) (d : ℝ) : List (ℕ × List Link) :=
  let m1 := if (m.lookup f).isSome then m else mapSet m f []
  m1.map fun kv => if kv.1 = f then (kv.1, kv.2 ++ [⟨t, d⟩]) else kv

/-- `AStarPathfinder.setLinks`: clear the adjacency map, then for each
`[f, t, d]` push the forward entry onto `f`'s list and the reverse entry
onto `t`'s list. -/
def setLinks (P : AStarPathfinder) (linkList : List (ℕ × ℕ × ℝ)) : AStarPathfinder :=
  { P with links := (linkList.foldl
      (fun m t => addDirectedLink (addDirectedLink m t.1 t.2.1 t.2.2) t.2.1 t.1 t.2.2) []) }

/-- `AStarPathfinder.heuristic`: Euclidean distance between two nodes. -/
noncomputable def heuristic (nodeA nodeB : Node) : ℝ :=
  let dx := nodeA.x - nodeB.x
  let dy := nodeA.y - nodeB.y
  Real.sqrt (dx * dx + dy * dy)

/-- The per-call search state of `findPath`. -/
structure SearchState where
  openSet : List ℕ
  cameFrom : List (ℕ × ℕ)
  gScore : List (ℕ × WithTop ℝ)
  fScore : List (ℕ × WithTop ℝ)

/-- JS `Set.prototype.add` on the open set: append when absent. -/
def setAdd (s : List ℕ) (x : ℕ) : List ℕ := if x ∈ s then s else s ++ [x]

/-- The `for (const nodeId of openSet)` scan selecting the member with the
least `fScore`.  A missing score (JS `undefined`) never wins a `<`
comparison, and the accumulator starts as `(null, Infinity)`. -/
noncomputable def selectCurrent (fScore : List (ℕ × WithTop ℝ)) (openSet : List ℕ) :
    Option ℕ × WithTop ℝ :=
  openSet.foldl
    (fun acc nodeId =>
      match fScore.lookup nodeId with
      | none => acc
      | some score => if score < acc.2 then (some nodeId, score) else acc)
    (none, ⊤)

/-- The body of `for (const neighbor of neighbors)`: relax one link out of
`current`.  A missing `gScore` entry for the neighbour (a link endpoint
absent from the node map) makes the JS comparison
`tentativeGScore < gScore.get(neighborId)` false, so no update happens;
this is the `none => st` branch.  The `getD` fallback for the neighbour
node is never reached from `findPath`, because a neighbour with a
`gScore` entry has a node-map entry. -/
noncomputable def relaxNeighbor (P : AStarPathfinder) (goalNode : Node) (current : ℕ)
    (st : SearchState) (neighbor : Link) : SearchState :=
  let neighborId := neighbor.«to»
  match st.gScore.lookup current with
  | none => st
  | some gc =>
    let tentativeGScore := gc + (neighbor.distance : WithTop ℝ)
    match st.gScore.lookup neighborId with
    | none => st
    | some gn =>
      if tentativeGScore < gn then
        let neighborNode := (P.nodes.lookup neighborId).getD ⟨neighborId, 0, 0⟩
        { st with
          cameFrom := mapSet st.cameFrom neighborId current
          gScore := mapSet st.gScore neighborId tentativeGScore
          fScore := mapSet st.fScore neighborId
            (tentativeGScore + ((heuristic neighborNode goalNode : ℝ) : WithTop ℝ))
          openSet := setAdd st.openSet neighborId }
      else st

/-- One loop iteration after the current node was selected and found
different from the goal: `openSet.delete(current)` followed by the
neighbour loop.  When `current` is `null` nothing is deleted and
`links.get(null)` yields no neighbours. -/
noncomputable def expandCurrent (P : AStarPathfinder) (goalNode : Node)
    (st : SearchState) (current : Option ℕ) : SearchState :=
  match current with
  | none => st
  | some c =>
    let neighbors := (P.links.lookup c).getD []
    neighbors.foldl (relaxNeighbor P goalNode c) { st with openSet := st.openSet.erase c }

/-- `AStarPathfinder.reconstructPath`, with an explicit bound on the
number of `while (cameFrom.has(current))` iterations; `none` means the
bound was insufficient. -/
def reconstructPath (cameFrom : List (ℕ × ℕ)) : ℕ → ℕ → Option (List ℕ)
  | 0, _ => none
  | fuel + 1, current =>
    match cameFrom.lookup current with
    | none => some [current]
    | some prev => (reconstructPath cameFrom fuel prev).map (fun p => p ++ [current])

open Classical in
/-- Run `reconstructPath` with the least sufficient iteration bound when
one exists; `none` embeds a diverging `while` loop (a `cameFrom` cycle). -/
noncomputable def reconstructPathRun (cameFrom : List (ℕ × ℕ)) (current : ℕ) :
    Option (List ℕ) :=
  if h : ∃ fuel, (reconstructPath cameFrom fuel current).isSome then
    reconstructPath cameFrom (Nat.find h) current
  else none

/-- One test of the `while (openSet.size > 0)` condition followed by one
loop body: either the call returns (`Sum.inl`) or the loop continues in a
new state (`Sum.inr`). -/
noncomputable def loopIter (P : AStarPathfinder) (goalId : ℕ) (goalNode : Node)
    (st : SearchState) : Option (List ℕ) ⊕ SearchState :=
  if st.openSet = [] then Sum.inl (some [])
  else
    let current := (selectCurrent st.fScore st.openSet).1
    if current = some goalId then Sum.inl (reconstructPathRun st.cameFrom goalId)
    else Sum.inr (expandCurrent P goalNode st current)

/-- The `while (openSet.size > 0)` loop with an explicit iteration bound;
`none` means the bound was insufficient. -/
noncomputable def findPathLoop (P : AStarPathfinder) (goalId : ℕ) (goalNode : Node) :
    ℕ → SearchState → Option (List ℕ)
  | 0, _ => none
  | fuel + 1, st =>
    match loopIter P goalId goalNode st with
    | Sum.inl r => r
    | Sum.inr st2 => findPathLoop P goalId goalNode fuel st2

/-- The search state set up by `findPath` before its loop: every node id
scored `Infinity`, then the start re-scored. -/
noncomputable def initState (P : AStarPathfinder) (startId : ℕ) (startNode goalNode : Node) :
    SearchState where
  openSet := [startId]
  cameFrom := []
  gScore := mapSet (P.nodes.foldl (fun m kv => mapSet m kv.1 (⊤ : WithTop ℝ)) [])
    startId ((0 : ℝ) : WithTop ℝ)
  fScore := mapSet (P.nodes.foldl (fun m kv => mapSet m kv.1 (⊤ : WithTop ℝ)) [])
    startId ((heuristic startNode goalNode : ℝ) : WithTop ℝ)

open Classical in
/-- `AStarPathfinder.findPath`.  `some r` is the JS return value of a
terminating call; `none` embeds divergence of the unbounded loop. -/
noncomputable def findPath (P : AStarPathfinder) (startId goalId : ℕ) : Option (List ℕ) :=
  match P.nodes.lookup startId, P.nodes.lookup goalId with
  | some startNode, some goalNode =>
    if startId = goalId then some [startId]
    else
      let s0 := initState P startId startNode goalNode
      if h : ∃ fuel, (findPathLoop P goalId goalNode fuel s0).isSome then
        findPathLoop P goalId goalNode (Nat.find h) s0
      else none
  | _, _ => some []

/-- `findPath` with the instance state threaded explicitly: the method
reads `this.nodes` and `this.links` and assigns to neither, so the
resulting state is the input state. -/
noncomputable def findPathM (P : AStarPathfinder) (startId goalId : ℕ) :
    Option (List ℕ) × AStarPathfinder :=
  (findPath P startId goalId, P)

/-! ## Specification-side predicates about the stored graph -/

/-- The adjacency map stores a link from `u` to `v` of distance `d`. -/
def HasLink (P : AStarPathfinder) (u v : ℕ) (d : ℝ) : Prop :=
  ∃ l, P.links.lookup u = some l ∧ (⟨v, d⟩ : Link) ∈ l

/-- `LinkPath P a b q w`: `q` is a node-id sequence from `a` to `b` whose
consecutive pairs are joined by stored links realising total weight `w`. -/
inductive LinkPath (P : AStarPathfinder) : ℕ → ℕ → List ℕ → ℝ → Prop
  | nil (a : ℕ) : LinkPath P a a [a] 0
  | cons (a b c : ℕ) (p : List ℕ) (d w : ℝ) :
      HasLink P a b d → LinkPath P b c p w → LinkPath P a c (a :: p) (d + w)

/-- A walk out of a node given as its list of steps `(target, distance)`. -/
def WalkSteps (P : AStarPathfinder) : ℕ → List (ℕ × ℝ) → Prop
  | _, [] => True
  | a, s :: rest => HasLink P a s.1 s.2 ∧ WalkSteps P s.1 rest

/-- End node of a step list starting at `a`. -/
def walkEnd (a : ℕ) (steps : List (ℕ × ℝ)) : ℕ := (steps.map Prod.fst).getLastD a

/-- Total weight of a step list. -/
def walkWeight (steps : List (ℕ × ℝ)) : ℝ := (steps.map Prod.snd).sum

/-- All nodes visited by a step list starting at `a`. -/
def walkNodes (a : ℕ) (steps : List (ℕ × ℝ)) : List ℕ := a :: steps.map Prod.fst

/-- One continuing step of the `findPath` loop. -/
def LoopStep (P : AStarPathfinder) (goalId : ℕ) (goalNode : Node)
    (s1 s2 : SearchState) : Prop :=
  loopIter P goalId goalNode s1 = Sum.inr s2

/-- The search states reached by the `findPath` loop for the given query. -/
def ReachesState (P : AStarPathfinder) (startId goalId : ℕ) (startNode goalNode : Node)
    (s : SearchState) : Prop :=
  Relation.ReflTransGen (LoopStep P goalId goalNode)
    (initState P startId startNode goalNode) s

/-! ## Proof-side invariants and measures for the search loop -/

/-- Every link distance stored in the adjacency map is nonnegative. -/
def NonnegLinks (P : AStarPathfinder) : Prop :=
  ∀ u l, P.links.lookup u = some l → ∀ e ∈ l, 0 ≤ e.distance

/-- Claim C1's hypothesis on the graph: every stored link joins two nodes
of the node map and its distance is nonnegative and at least the
Euclidean distance between the endpoints' coordinates. -/
def EuclidLowerBound (P : AStarPathfinder) : Prop :=
  ∀ u v d, HasLink P u v d → ∃ nu nv, P.nodes.lookup u = some nu ∧
    P.nodes.lookup v = some nv ∧ 0 ≤ d ∧ heuristic nu nv ≤ d

/-- The score maps have exactly the node map's keys. -/
def ScoresAligned (P : AStarPathfinder) (s : SearchState) : Prop :=
  ∀ x : ℕ, ((s.gScore.lookup x).isSome ↔ (P.nodes.lookup x).isSome) ∧
    ((s.fScore.lookup x).isSome ↔ (P.nodes.lookup x).isSome)

/-- The open set never holds duplicates (it embeds a JS `Set`). -/
def NodupOpen (s : SearchState) : Prop := s.openSet.Nodup

/-- Every open-set member has a finite `gScore`. -/
def OpenFinite (s : SearchState) : Prop :=
  ∀ n ∈ s.openSet, ∃ r : ℝ, s.gScore.lookup n = some (r : WithTop ℝ)

/-- Every finite `gScore` is certified by a duplicate-free walk from the
start whose weight it equals, on which every prefix end is already scored
at most the prefix weight. -/
def GCert (P : AStarPathfinder) (startId : ℕ) (s : SearchState) : Prop :=
  ∀ n r, s.gScore.lookup n = some ((r : ℝ) : WithTop ℝ) → ∃ steps,
    WalkSteps P startId steps ∧ walkEnd startId steps = n ∧ walkWeight steps = r ∧
    (walkNodes startId steps).Nodup ∧
    ∀ k ≤ steps.length, ∃ q : ℝ,
      s.gScore.lookup (walkEnd startId (steps.take k)) = some (q : WithTop ℝ) ∧
      q ≤ walkWeight (steps.take k)

/-- Every finitely scored node's `fScore` is its `gScore` plus the
heuristic to the goal node. -/
def FScoreLinked (P : AStarPathfinder) (goalNode : Node) (s : SearchState) : Prop :=
  ∀ n r, s.gScore.lookup n = some ((r : ℝ) : WithTop ℝ) →
    ∃ nd, P.nodes.lookup n = some nd ∧
      s.fScore.lookup n = some ((r + heuristic nd goalNode : ℝ) : WithTop ℝ)

/-- Every `cameFrom` entry records a stored link whose relaxation is still
consistent with the current scores. -/
def CameFromEdge (P : AStarPathfinder) (s : SearchState) : Prop :=
  ∀ n c, s.cameFrom.lookup n = some c → ∃ d rc rn, HasLink P c n d ∧
    s.gScore.lookup c = some ((rc : ℝ) : WithTop ℝ) ∧
    s.gScore.lookup n = some ((rn : ℝ) : WithTop ℝ) ∧ rc + d ≤ rn

/-- Following `cameFrom` pointers always terminates (the pointer graph is
well founded, hence acyclic). -/
def CameFromAcc (s : SearchState) : Prop :=
  ∀ n : ℕ, Acc (fun a b => s.cameFrom.lookup b = some a) n

/-- Every finitely scored node other than the start has a predecessor. -/
def CameFromTotal (startId : ℕ) (s : SearchState) : Prop :=
  ∀ n r, n ≠ startId → s.gScore.lookup n = some ((r : ℝ) : WithTop ℝ) →
    (s.cameFrom.lookup n).isSome

/-- The start keeps `gScore` zero. -/
def StartZero (startId : ℕ) (s : SearchState) : Prop :=
  s.gScore.lookup startId = some ((0 : ℝ) : WithTop ℝ)

/-- Every settled node (finitely scored, not open) has all its outgoing
links relaxed: each scored neighbour is scored at most the node's score
plus the link distance. -/
def ClosedRelaxed (P : AStarPathfinder) (s : SearchState) : Prop :=
  ∀ n rn, n ∉ s.openSet → s.gScore.lookup n = some ((rn : ℝ) : WithTop ℝ) →
    ∀ l, P.links.lookup n = some l → ∀ e ∈ l, ∀ ge,
      s.gScore.lookup e.«to» = some ge → ge ≤ ((rn + e.distance : ℝ) : WithTop ℝ)

/-- The key-validity invariant of the search state, used for the
dangling-endpoint claim: score keys are exactly the node keys, open-set
members are scored, and `cameFrom` entries relate scored nodes. -/
def BasicSearchInv (P : AStarPathfinder) (s : SearchState) : Prop :=
  ScoresAligned P s ∧ (∀ n ∈ s.openSet, (s.gScore.lookup n).isSome) ∧
    (∀ n c, s.cameFrom.lookup n = some c →
      (s.gScore.lookup n).isSome ∧ (s.gScore.lookup c).isSome)

/-- `ClosedRelaxed` for every settled node other than `c` (the node whose
expansion is in progress). -/
def ClosedRelaxedExcept (P : AStarPathfinder) (c : ℕ) (s : SearchState) : Prop :=
  ∀ n rn, n ≠ c → n ∉ s.openSet → s.gScore.lookup n = some ((rn : ℝ) : WithTop ℝ) →
    ∀ l, P.links.lookup n = some l → ∀ e ∈ l, ∀ ge,
      s.gScore.lookup e.«to» = some ge → ge ≤ ((rn + e.distance : ℝ) : WithTop ℝ)

/-- All loop-invariant components except `ClosedRelaxed`, which holds only
at iteration boundaries. -/
def AStarInvCore (P : AStarPathfinder) (startId : ℕ) (goalNode : Node)
    (s : SearchState) : Prop :=
  ScoresAligned P s ∧ NodupOpen s ∧ OpenFinite s ∧ GCert P startId s ∧
    FScoreLinked P goalNode s ∧ CameFromEdge P s ∧ CameFromAcc s ∧
    CameFromTotal startId s ∧ StartZero startId s

/-- The full loop invariant of `findPath` on a graph with nonnegative
link distances. -/
def AStarInv (P : AStarPathfinder) (startId : ℕ) (goalNode : Node)
    (s : SearchState) : Prop :=
  AStarInvCore P startId goalNode s ∧ ClosedRelaxed P s

/-- All `(target, distance)` link entries of the adjacency map. -/
def linkEntryList (P : AStarPathfinder) : List (ℕ × ℝ) :=
  ((P.links.map Prod.snd).flatten).map (fun e => (e.«to», e.distance))

/-- The finite set of subset sums of stored link distances: every
duplicate-free walk weight lies in it. -/
noncomputable def weightCandidates (P : AStarPathfinder) : Finset ℝ :=
  letI : DecidableEq ℝ := Classical.decEq ℝ
  ((linkEntryList P).sublists.map (fun t => (t.map Prod.snd).sum)).toFinset

/-- How many candidate weights lie strictly below a node's current
`gScore`; it drops whenever the node is relaxed. -/
noncomputable def gRank (P : AStarPathfinder) (s : SearchState) (n : ℕ) : ℕ :=
  ((weightCandidates P).filter
    (fun w => ((w : ℝ) : WithTop ℝ) < (s.gScore.lookup n).getD ⊤)).card

/-- Total rank over all node ids. -/
noncomputable def gSum (P : AStarPathfinder) (s : SearchState) : ℕ :=
  ((P.nodes.map Prod.fst).toFinset).sum (gRank P s)

/-- The loop termination measure: total rank weighted against the open
set's size. -/
noncomputable def searchMeasure (P : AStarPathfinder) (s : SearchState) : ℕ :=
  gSum P s * (P.nodes.length + 1) + s.openSet.length

/-- The goal stays in the open set while it is finitely scored: the loop
returns before ever expanding (and so erasing) the goal. -/
def GoalOpen (goalId : ℕ) (s : SearchState) : Prop :=
  ∀ r : ℝ, s.gScore.lookup goalId = some ((r : ℝ) : WithTop ℝ) → goalId ∈ s.openSet

/-- The optimality invariant: every walk out of the start either passes
through an open node whose score is at most the weight of the walk prefix
reaching it, or ends at a node already scored at most the walk's weight. -/
def PathHook (P : AStarPathfinder) (startId : ℕ) (s : SearchState) : Prop :=
  ∀ steps, WalkSteps P startId steps →
    (∃ k ≤ steps.length, walkEnd startId (steps.take k) ∈ s.openSet ∧
      ∃ gy : ℝ, s.gScore.lookup (walkEnd startId (steps.take k)) =
        some ((gy : ℝ) : WithTop ℝ) ∧ gy ≤ walkWeight (steps.take k)) ∨
    (∃ gt : ℝ, s.gScore.lookup (walkEnd startId steps) =
      some ((gt : ℝ) : WithTop ℝ) ∧ gt ≤ walkWeight steps)

/-! # Theorems -/

/-! ## Helper lemmas for the projection claims -/

/-- Inverting the Mercator latitude formula is exact on `(-π/2, π/2)`:
the code's `atan(sinh(·))` applied to half the stored log recovers the
angle. -/
theorem mercator_inverse (φ : ℝ) (h1 : -(Real.pi/2) < φ) (h2 : φ < Real.pi/2) :
    Real.arctan (Real.sinh (Real.log ((1 + Real.sin φ) / (1 - Real.sin φ)) / 2)) = φ := by
  have hc : 0 < Real.cos φ := Real.cos_pos_of_mem_Ioo ⟨h1, h2⟩
  have hs2 : Real.sin φ < 1 := by
    have := Real.sin_lt_sin_of_lt_of_le_pi_div_two (x := φ) (y := Real.pi/2)
      (by linarith) le_rfl h2
    simpa using this
  have hs1 : -1 < Real.sin φ := by
    have := Real.sin_lt_sin_of_lt_of_le_pi_div_two (x := -(Real.pi/2)) (y := φ)
      le_rfl (by linarith) h1
    simpa using this
  set s := Real.sin φ with hs
  have hnum : (0:ℝ) < 1 + s := by linarith
  have hden : (0:ℝ) < 1 - s := by linarith
  have hr : (0:ℝ) < (1 + s) / (1 - s) := div_pos hnum hden
  have hlog : Real.log ((1 + s) / (1 - s)) / 2 = Real.log (Real.sqrt ((1 + s) / (1 - s))) := by
    rw [Real.log_sqrt hr.le]
  set a := Real.sqrt (1 + s) with ha
  set b := Real.sqrt (1 - s) with hb
  have hapos : 0 < a := Real.sqrt_pos.mpr hnum
  have hbpos : 0 < b := Real.sqrt_pos.mpr hden
  have ha2 : a ^ 2 = 1 + s := Real.sq_sqrt hnum.le
  have hb2 : b ^ 2 = 1 - s := Real.sq_sqrt hden.le
  have hsqrtr : Real.sqrt ((1 + s) / (1 - s)) = a / b := Real.sqrt_div hnum.le _
  have hab : a * b = Real.cos φ := by
    have h1ms : (1 + s) * (1 - s) = Real.cos φ ^ 2 := by
      have := Real.sin_sq_add_cos_sq φ
      ring_nf
      nlinarith [this]
    rw [ha, hb, ← Real.sqrt_mul hnum.le, h1ms, Real.sqrt_sq hc.le]
  have hsinh : Real.sinh (Real.log ((1 + s) / (1 - s)) / 2) = Real.tan φ := by
    rw [hlog, hsqrtr, Real.sinh_log (by positivity)]
    rw [Real.tan_eq_sin_div_cos, ← hs, ← hab]
    have hane : a ≠ 0 := ne_of_gt hapos
    have hbne : b ≠ 0 := ne_of_gt hbpos
    field_simp
    nlinarith [ha2, hb2]
  rw [hsinh, Real.arctan_tan h1 h2]

/-- Rounding to six decimal places moves a value by at most `5e-7`. -/
theorem toFixed6_close (x : ℝ) : |toFixed6 x - x| ≤ 1 / 2000000 := by
  unfold toFixed6
  have h := abs_sub_round (x * 1000000)
  rw [abs_sub_comm] at h
  have e : |(round (x * 1000000) : ℤ) / 1000000 - x| =
      |(round (x * 1000000) : ℤ) - x * 1000000| / 1000000 := by
    rw [← abs_of_pos (show (0:ℝ) < 1000000 by norm_num), ← abs_div]
    congr 1
    field_simp
    ring
  rw [e, div_le_div_iff₀ (by norm_num) (by norm_num)]
  nlinarith [h]

/-! ## Claim C8 -/

/-- Claim C8: for every latitude in `(-85, 85)`, every longitude in
`[-180, 180]` and every map centre and zoom, converting a geographic
point to plane coordinates with `convertLatLngToScratch` and back with
`getScratchCoordinateLocation` recovers the latitude and the longitude to
within `1e-4` degrees. -/
theorem claim_C8_projection_roundtrip (tm : TileMapState) (lat lon : ℝ)
    (hlat1 : -85 < lat) (hlat2 : lat < 85) (hlon1 : -180 ≤ lon) (hlon2 : lon ≤ 180) :
    |(getScratchCoordinateLocation tm (convertLatLngToScratch tm lat lon).1
        (convertLatLngToScratch tm lat lon).2).1 - lat| ≤ 1 / 10000 ∧
    |(getScratchCoordinateLocation tm (convertLatLngToScratch tm lat lon).1
        (convertLatLngToScratch tm lat lon).2).2 - lon| ≤ 1 / 10000 := by
  have h2z : (2:ℝ) ^ tm.currentZoom ≠ 0 := zpow_ne_zero _ (by norm_num)
  have hW : (256 : ℝ) * 2 ^ tm.currentZoom ≠ 0 := by positivity
  have hpi := Real.pi_pos
  have hphi1 : -(Real.pi/2) < lat * Real.pi / 180 := by
    nlinarith [mul_pos (show (0:ℝ) < lat + 85 by linarith) hpi]
  have hphi2 : lat * Real.pi / 180 < Real.pi/2 := by
    nlinarith [mul_pos (show (0:ℝ) < 85 - lat by linarith) hpi]
  have hmerc := mercator_inverse (lat * Real.pi / 180) hphi1 hphi2
  simp only [getScratchCoordinateLocation, convertLatLngToScratch]
  constructor
  · have e1 : ((0.5 - Real.log ((1 + Real.sin (tm.centerLatitude * Real.pi / 180)) /
        (1 - Real.sin (tm.centerLatitude * Real.pi / 180))) / (4 * Real.pi)) *
          (256 * 2 ^ tm.currentZoom) -
        ((0.5 - Real.log ((1 + Real.sin (tm.centerLatitude * Real.pi / 180)) /
          (1 - Real.sin (tm.centerLatitude * Real.pi / 180))) / (4 * Real.pi)) *
            (256 * 2 ^ tm.currentZoom) -
          (0.5 - Real.log ((1 + Real.sin (lat * Real.pi / 180)) /
            (1 - Real.sin (lat * Real.pi / 180))) / (4 * Real.pi)) *
              (256 * 2 ^ tm.currentZoom))) =
        (0.5 - Real.log ((1 + Real.sin (lat * Real.pi / 180)) /
          (1 - Real.sin (lat * Real.pi / 180))) / (4 * Real.pi)) *
            (256 * 2 ^ tm.currentZoom) := by
      ring
    rw [e1]
    have e2 : Real.pi * (1 - 2 * ((0.5 - Real.log ((1 + Real.sin (lat * Real.pi / 180)) /
        (1 - Real.sin (lat * Real.pi / 180))) / (4 * Real.pi)) * (256 * 2 ^ tm.currentZoom) /
          (256 * 2 ^ tm.currentZoom))) =
        Real.log ((1 + Real.sin (lat * Real.pi / 180)) /
          (1 - Real.sin (lat * Real.pi / 180))) / 2 := by
      field_simp
      ring
    rw [e2, hmerc]
    have e3 : lat * Real.pi / 180 * 180 / Real.pi = lat := by
      field_simp
    rw [e3]
    calc |toFixed6 lat - lat| ≤ 1 / 2000000 := toFixed6_close lat
      _ ≤ 1 / 10000 := by norm_num
  · have e4 : ((tm.centerLongitude + 180) / 360 * (256 * 2 ^ tm.currentZoom) +
        ((lon + 180) / 360 * (256 * 2 ^ tm.currentZoom) -
          (tm.centerLongitude + 180) / 360 * (256 * 2 ^ tm.currentZoom))) /
          (256 * 2 ^ tm.currentZoom) * 360 - 180 = lon := by
      field_simp
      ring
    rw [e4]
    calc |toFixed6 lon - lon| ≤ 1 / 2000000 := toFixed6_close lon
      _ ≤ 1 / 10000 := by norm_num

/-- Witness for claim C8 at Tokyo-like coordinates. -/
theorem claim_C8_projection_roundtrip_witness :
    (-85 < (35:ℝ)) ∧ ((35:ℝ) < 85) ∧ ((-180:ℝ) ≤ 139) ∧ ((139:ℝ) ≤ 180) ∧
    (|(getScratchCoordinateLocation ⟨35, 139, 18⟩
        (convertLatLngToScratch ⟨35, 139, 18⟩ 35 139).1
        (convertLatLngToScratch ⟨35, 139, 18⟩ 35 139).2).1 - 35| ≤ 1 / 10000 ∧
      |(getScratchCoordinateLocation ⟨35, 139, 18⟩
        (convertLatLngToScratch ⟨35, 139, 18⟩ 35 139).1
        (convertLatLngToScratch ⟨35, 139, 18⟩ 35 139).2).2 - 139| ≤ 1 / 10000) :=
  ⟨by norm_num, by norm_num, by norm_num, by norm_num,
    claim_C8_projection_roundtrip ⟨35, 139, 18⟩ 35 139
      (by norm_num) (by norm_num) (by norm_num) (by norm_num)⟩

/-! ## Claim C9 -/

/-- Counterexample to claim C9: latitude `200` is a domain violation, yet
`calculateDistance` raises nothing and silently returns `0` — the code has
no validation and no `InvalidCoordinate` failure path, contradicting the
claim that such inputs must fail and never yield `0`. -/
theorem claim_C9_counterexample : calculateDistance 200 0 200 0 = 0 := by
  unfold calculateDistance
  simp

/-- Claim C9 as amended: the projection-engine functions perform no domain
validation and never fail; a domain-violating input flows through the
formulas, so `calculateDistance` silently returns `0` for coincident
points at any (even out-of-range) latitude and `getMetersPerPixel`
returns a negative scale for latitudes beyond `90`. -/
theorem claim_C9_amended_no_validation (lat lon : ℝ) (zoom : ℤ) :
    calculateDistance lat lon lat lon = 0 ∧
    (90 < lat → lat < 180 → getMetersPerPixel lat zoom < 0) := by
  constructor
  · unfold calculateDistance
    simp
  · intro h1 h2
    unfold getMetersPerPixel
    apply div_neg_of_neg_of_pos
    · apply mul_neg_of_pos_of_neg (by norm_num)
      apply Real.cos_neg_of_pi_div_two_lt_of_lt
      · nlinarith [mul_pos (show (0:ℝ) < lat - 90 by linarith) Real.pi_pos]
      · nlinarith [mul_pos (show (0:ℝ) < 270 - lat by linarith) Real.pi_pos]
    · positivity

/-- Witness for the amended claim C9 at latitude `100`. -/
theorem claim_C9_amended_no_validation_witness :
    calculateDistance 100 0 100 0 = 0 ∧ getMetersPerPixel 100 18 < 0 :=
  ⟨(claim_C9_amended_no_validation 100 0 18).1,
    (claim_C9_amended_no_validation 100 0 18).2 (by norm_num) (by norm_num)⟩

/-! ## Claim C10 -/

/-- Claim C10: `getCurrentSpeed` always returns `0`: it returns `0` when
not moving or when no time has elapsed, and otherwise the distance it
computes is the difference of `lastPosition` with itself, which is zero. -/
theorem claim_C10_getCurrentSpeed_zero (c : PreciseMovementController)
    (metersPerPixel now : ℝ) : getCurrentSpeed c metersPerPixel now = 0 := by
  simp [getCurrentSpeed]

/-! ## Claim C6 -/

/-- Claim C6: `updateMovement` while Idle, or while Moving when the time
since the last applied step is below the fixed `33.33` ms interval,
returns `false` and changes neither the sprite position nor any
controller field. -/
theorem claim_C6_throttle_noop (c : PreciseMovementController) (sprite : SpritePos)
    (fx fy speed timeScale mpp now : ℝ) :
    (c.isMoving = false →
      updateMovement c sprite fx fy speed timeScale mpp now = (false, c, sprite)) ∧
    (c.isMoving = true → c.updateInterval = 33.33 → now - c.lastUpdateTime < 33.33 →
      updateMovement c sprite fx fy speed timeScale mpp now = (false, c, sprite)) := by
  constructor
  · intro h
    unfold updateMovement
    rw [h]
    simp
  · intro h hint hlt
    unfold updateMovement
    rw [h, hint]
    simp [hlt]

/-- Witness for claim C6: a fresh Idle controller, and a Moving controller
polled 10 ms after its last update. -/
theorem claim_C6_throttle_noop_witness :
    (updateMovement mkPreciseMovementController ⟨0, 0⟩ 1 2 3 1 1 0 =
      (false, mkPreciseMovementController, ⟨0, 0⟩)) ∧
    (updateMovement (startMovement mkPreciseMovementController 0 0 5 100) ⟨0, 0⟩ 1 2 3 1 1 110 =
      (false, startMovement mkPreciseMovementController 0 0 5 100, ⟨0, 0⟩)) :=
  ⟨(claim_C6_throttle_noop mkPreciseMovementController ⟨0, 0⟩ 1 2 3 1 1 0).1 rfl,
    (claim_C6_throttle_noop (startMovement mkPreciseMovementController 0 0 5 100)
        ⟨0, 0⟩ 1 2 3 1 1 110).2 rfl rfl (by norm_num [startMovement, mkPreciseMovementController])⟩

/-! ## Claim C5 -/

/-- Claim C5: an applied, non-arriving step of `updateMovement` (Moving,
past the throttle, remaining distance at least `0.01` m) moves along the
straight line toward the target using the computed step distance
`(speed × timeScale × elapsedSeconds) / metersPerPixel` plus the
carried-over `accumulatedError`, clamps onto the target exactly when that
step distance is at least the remaining distance, and records into
`accumulatedError` the signed difference between the intended step
distance and the distance actually applied. -/
theorem claim_C5_error_carry (c : PreciseMovementController) (sprite : SpritePos)
    (fx fy speed timeScale mpp now : ℝ)
    (hmov : c.isMoving = true)
    (hthr : ¬ now - c.lastUpdateTime < c.updateInterval)
    (harr : ¬ Real.sqrt ((fx - sprite.x) * (fx - sprite.x) +
      (fy - sprite.y) * (fy - sprite.y)) * mpp < 0.01) :
    (updateMovement c sprite fx fy speed timeScale mpp now).1 = false ∧
    (updateMovement c sprite fx fy speed timeScale mpp now).2.1.accumulatedError =
      speed * timeScale * ((now - c.lastUpdateTime) / 1000) / mpp -
        Real.sqrt
          (((updateMovement c sprite fx fy speed timeScale mpp now).2.2.x - sprite.x) *
            ((updateMovement c sprite fx fy speed timeScale mpp now).2.2.x - sprite.x) +
          ((updateMovement c sprite fx fy speed timeScale mpp now).2.2.y - sprite.y) *
            ((updateMovement c sprite fx fy speed timeScale mpp now).2.2.y - sprite.y)) ∧
    (Real.sqrt ((fx - sprite.x) * (fx - sprite.x) + (fy - sprite.y) * (fy - sprite.y)) ≤
        speed * timeScale * ((now - c.lastUpdateTime) / 1000) / mpp + c.accumulatedError →
      (updateMovement c sprite fx fy speed timeScale mpp now).2.2 = ⟨fx, fy⟩) ∧
    (¬ Real.sqrt ((fx - sprite.x) * (fx - sprite.x) + (fy - sprite.y) * (fy - sprite.y)) ≤
        speed * timeScale * ((now - c.lastUpdateTime) / 1000) / mpp + c.accumulatedError →
      (updateMovement c sprite fx fy speed timeScale mpp now).2.2 =
        ⟨sprite.x + (fx - sprite.x) /
            Real.sqrt ((fx - sprite.x) * (fx - sprite.x) + (fy - sprite.y) * (fy - sprite.y)) *
            (speed * timeScale * ((now - c.lastUpdateTime) / 1000) / mpp +
              c.accumulatedError),
          sprite.y + (fy - sprite.y) /
            Real.sqrt ((fx - sprite.x) * (fx - sprite.x) + (fy - sprite.y) * (fy - sprite.y)) *
            (speed * timeScale * ((now - c.lastUpdateTime) / 1000) / mpp +
              c.accumulatedError)⟩) ∧
    (updateMovement c sprite fx fy speed timeScale mpp now).2.1.lastUpdateTime = now := by
  unfold updateMovement
  simp only [hmov, if_true, if_neg hthr, if_neg harr]
  refine ⟨trivial, trivial, ?_, ?_, trivial⟩
  · intro h
    unfold calculateNextTarget
    simp only [if_pos h]
  · intro h
    unfold calculateNextTarget
    simp only [if_neg h]

/-- Witness for claim C5: a Moving controller stepping from `(0,0)` toward
`(100,0)` well past the throttle interval. -/
theorem claim_C5_error_carry_witness :
    ((startMovement mkPreciseMovementController 0 0 5 0).isMoving = true) ∧
    (¬ (100:ℝ) - (startMovement mkPreciseMovementController 0 0 5 0).lastUpdateTime <
      (startMovement mkPreciseMovementController 0 0 5 0).updateInterval) ∧
    (¬ Real.sqrt (((100:ℝ) - 0) * (100 - 0) + ((0:ℝ) - 0) * (0 - 0)) * 1 < 0.01) ∧
    (updateMovement (startMovement mkPreciseMovementController 0 0 5 0) ⟨0, 0⟩
      100 0 5 1 1 100).1 = false := by
  have hs : Real.sqrt (((100:ℝ) - 0) * (100 - 0) + ((0:ℝ) - 0) * (0 - 0)) = 100 := by
    rw [show (((100:ℝ) - 0) * (100 - 0) + ((0:ℝ) - 0) * (0 - 0)) = 100 ^ 2 by norm_num]
    rw [Real.sqrt_sq (by norm_num)]
  refine ⟨rfl, ?_, ?_, ?_⟩
  · simp [startMovement, mkPreciseMovementController]
    norm_num
  · rw [hs]
    norm_num
  · exact (claim_C5_error_carry (startMovement mkPreciseMovementController 0 0 5 0)
      ⟨0, 0⟩ 100 0 5 1 1 100 rfl
      (by simp [startMovement, mkPreciseMovementController]; norm_num)
      (by rw [hs]; norm_num)).1

/-! ## Claim C7 -/

/-- Claim C7: the path-movement operations preserve the invariant
`0 ≤ currentTargetIndex ≤ length pathNodes`; `updatePathMovement` reports
done exactly when the controller is inactive, the cursor has already
reached the end, or the current leg arrives and it was the last leg (so
done is never reported before the last leg arrives); and starting with an
empty waypoint sequence reports not-started and changes no state. -/
theorem claim_C7_path_invariant (c : PathMovementController) (sprite : SpritePos)
    (pts : List SpritePos) (speed speed2 timeScale mpp now : ℝ)
    (hinv : c.currentTargetIndex ≤ c.pathNodes.length) :
    ((startPathMovement c pts speed2).2.currentTargetIndex ≤
      (startPathMovement c pts speed2).2.pathNodes.length) ∧
    ((updatePathMovement c sprite speed timeScale mpp now).2.1.currentTargetIndex ≤
      (updatePathMovement c sprite speed timeScale mpp now).2.1.pathNodes.length) ∧
    ((PathMovementController.reset c).currentTargetIndex ≤
      (PathMovementController.reset c).pathNodes.length) ∧
    (startPathMovement c [] speed2 = (false, c)) ∧
    ((updatePathMovement c sprite speed timeScale mpp now).1 = true ↔
      (c.isMoving = false ∨ c.pathNodes.length ≤ c.currentTargetIndex ∨
        ((updateMovement
            (if c.preciseMover.isMoving then c.preciseMover
              else startMovement c.preciseMover sprite.x sprite.y speed now) sprite
            (c.pathNodes.getD c.currentTargetIndex ⟨0, 0⟩).x
            (c.pathNodes.getD c.currentTargetIndex ⟨0, 0⟩).y
            speed timeScale mpp now).1 = true ∧
          c.currentTargetIndex + 1 = c.pathNodes.length))) := by
  refine ⟨?_, ?_, ?_, ?_, ?_⟩
  · unfold startPathMovement
    by_cases h : pts.length = 0
    · simpa [h] using hinv
    · simp [h]
  · unfold updatePathMovement
    by_cases h : c.isMoving = false ∨ c.pathNodes.length ≤ c.currentTargetIndex
    · simpa [h] using hinv
    · have hp : c.isMoving ≠ false ∧ c.currentTargetIndex < c.pathNodes.length := by
        push_neg at h
        exact h
      simp only [if_neg h]
      by_cases harr : (updateMovement
          (if c.preciseMover.isMoving then c.preciseMover
            else startMovement c.preciseMover sprite.x sprite.y speed now) sprite
          (c.pathNodes.getD c.currentTargetIndex ⟨0, 0⟩).x
          (c.pathNodes.getD c.currentTargetIndex ⟨0, 0⟩).y
          speed timeScale mpp now).1 = true
      · simp only [harr, if_true]
        by_cases hnext : c.currentTargetIndex + 1 < c.pathNodes.length
        · simp only [if_pos hnext]
          exact le_of_lt hnext
        · simp only [if_neg hnext]
          omega
      · simp only [Bool.not_eq_true] at harr
        simp only [harr]
        simpa using le_of_lt hp.2
  · simp [PathMovementController.reset, mkPathMovementController]
  · simp [startPathMovement]
  · unfold updatePathMovement
    by_cases h : c.isMoving = false ∨ c.pathNodes.length ≤ c.currentTargetIndex
    · simp only [if_pos h, true_iff]
      rcases h with h1 | h2
      · exact Or.inl h1
      · exact Or.inr (Or.inl h2)
    · have hp : c.isMoving ≠ false ∧ c.currentTargetIndex < c.pathNodes.length := by
        push_neg at h
        exact h
      simp only [if_neg h]
      by_cases harr : (updateMovement
          (if c.preciseMover.isMoving then c.preciseMover
            else startMovement c.preciseMover sprite.x sprite.y speed now) sprite
          (c.pathNodes.getD c.currentTargetIndex ⟨0, 0⟩).x
          (c.pathNodes.getD c.currentTargetIndex ⟨0, 0⟩).y
          speed timeScale mpp now).1 = true
      · simp only [harr, if_true]
        by_cases hnext : c.currentTargetIndex + 1 < c.pathNodes.length
        · simp only [if_pos hnext]
          constructor
          · intro hf
            simp at hf
          · rintro (h1 | h2 | ⟨_, h3⟩)
            · exact absurd h1 hp.1
            · omega
            · omega
        · simp only [if_neg hnext]
          have hlen : c.currentTargetIndex + 1 = c.pathNodes.length := by
            have := hp.2
            omega
          simp [harr, hlen]
      · simp only [Bool.not_eq_true] at harr
        simp only [harr]
        constructor
        · intro hf
          simp at hf
        · rintro (h1 | h2 | ⟨h3, _⟩)
          · exact absurd h1 hp.1
          · have := hp.2
            omega
          · simp [harr] at h3

/-- Witness for claim C7: the empty-waypoint start on a fresh controller. -/
theorem claim_C7_path_invariant_witness :
    startPathMovement mkPathMovementController [] 1 = (false, mkPathMovementController) :=
  (claim_C7_path_invariant mkPathMovementController ⟨0, 0⟩ [] 1 1 1 1 0 le_rfl).2.2.2.1

/-! ## Claim C3 -/

/-- Counterexample to claim C3: on the empty graph (any graph where the id
is absent from the node map) `findPath(a, a)` returns the empty sequence,
not `[a]` — the absent-endpoint guard runs before the `startId === goalId`
check. -/
theorem claim_C3_counterexample :
    findPath mkAStarPathfinder 0 0 = some [] ∧
      findPath mkAStarPathfinder 0 0 ≠ some [0] := by
  constructor
  · simp [findPath, mkAStarPathfinder]
  · simp [findPath, mkAStarPathfinder]

/-- Claim C3 as amended: for every graph and every node id `a` that is
present in the node map, `findPath(a, a)` returns the single-element
sequence `[a]`. -/
theorem claim_C3_amended_self_path (P : AStarPathfinder) (a : ℕ)
    (ha : (P.nodes.lookup a).isSome) : findPath P a a = some [a] := by
  obtain ⟨nd, hnd⟩ := Option.isSome_iff_exists.mp ha
  simp [findPath, hnd]

/-- Witness for the amended claim C3 on a one-node graph. -/
theorem claim_C3_amended_self_path_witness :
    findPath (setNodes mkAStarPathfinder [(7, 1, 2)]) 7 7 = some [7] :=
  claim_C3_amended_self_path (setNodes mkAStarPathfinder [(7, 1, 2)]) 7 (by
    simp [setNodes, mkAStarPathfinder, mapSet])

/-! ## Association-list and open-set lemmas -/

/-- Unfolding `List.lookup` on a cons cell with decidable equality. -/
theorem lookup_cons_eq_if {α : Type} (k : ℕ) (v : α) (l : List (ℕ × α)) (a : ℕ) :
    ((k, v) :: l).lookup a = if a = k then some v else l.lookup a := by
  simp [List.lookup]
  split <;> simp_all

/-- A key has a binding exactly when it occurs among the keys. -/
theorem lookup_isSome_iff_mem {α : Type} (l : List (ℕ × α)) (a : ℕ) :
    (l.lookup a).isSome ↔ a ∈ l.map Prod.fst := by
  induction l with
  | nil => simp [List.lookup]
  | cons h t ih =>
    rcases h with ⟨k, v⟩
    rw [lookup_cons_eq_if]
    by_cases hk : a = k <;> simp [hk, ih]

/-- Lookup distributes over append, preferring the left list. -/
theorem lookup_append {α : Type} (l1 l2 : List (ℕ × α)) (a : ℕ) :
    (l1 ++ l2).lookup a = (l1.lookup a).or (l2.lookup a) := by
  induction l1 with
  | nil => simp [List.lookup]
  | cons h t ih =>
    rcases h with ⟨k, v⟩
    simp only [List.cons_append]
    rw [lookup_cons_eq_if, lookup_cons_eq_if]
    split <;> simp_all

/-- Lookup after the in-place replacement `mapSet` performs on a present
key. -/
theorem lookup_map_replace {α : Type} (m : List (ℕ × α)) (k : ℕ) (v : α) (a : ℕ) :
    ((m.map fun kv => if kv.1 = k then (k, v) else kv).lookup a) =
      if a = k then (if (m.lookup k).isSome then some v else none) else m.lookup a := by
  induction m with
  | nil => simp [List.lookup]
  | cons h t ih =>
    rcases h with ⟨k0, v0⟩
    simp only [List.map_cons]
    by_cases hk : k0 = k
    · have e : (if (k0, v0).1 = k then (k, v) else (k0, v0)) = (k, v) := by simp [hk]
      rw [e, lookup_cons_eq_if, ih, lookup_cons_eq_if, lookup_cons_eq_if]
      clear ih
      split_ifs <;> simp_all
    · have e : (if (k0, v0).1 = k then (k, v) else (k0, v0)) = (k0, v0) := by simp [hk]
      rw [e, lookup_cons_eq_if, ih, lookup_cons_eq_if, lookup_cons_eq_if]
      clear ih
      split_ifs <;> simp_all

/-- The one lookup law for `mapSet`: the requested key now maps to the
value, all others are untouched. -/
theorem lookup_mapSet {α : Type} (m : List (ℕ × α)) (k : ℕ) (v : α) (a : ℕ) :
    ((mapSet m k v).lookup a) = if a = k then some v else m.lookup a := by
  unfold mapSet
  by_cases h : (m.lookup k).isSome
  · rw [if_pos h, lookup_map_replace]
    by_cases ha : a = k <;> simp [ha, h]
  · rw [if_neg h, lookup_append]
    rw [lookup_cons_eq_if]
    by_cases ha : a = k
    · subst ha
      simp only [if_pos rfl]
      rw [Option.not_isSome_iff_eq_none] at h
      simp [h, List.lookup]
    · simp [ha, List.lookup]

/-- Membership in the JS-set append `setAdd`. -/
theorem mem_setAdd (s : List ℕ) (x a : ℕ) : a ∈ setAdd s x ↔ a = x ∨ a ∈ s := by
  unfold setAdd
  split <;> rename_i h
  · constructor
    · exact fun ha => Or.inr ha
    · rintro (rfl | ha) <;> assumption
  · simp [or_comm]

/-- `setAdd` keeps the open set duplicate free. -/
theorem nodup_setAdd (s : List ℕ) (x : ℕ) (h : s.Nodup) : (setAdd s x).Nodup := by
  unfold setAdd
  split <;> rename_i hx
  · exact h
  · simpa [List.nodup_append] using ⟨h, hx⟩

/-! ## `selectCurrent` lemmas -/

/-- The minimum scan never forgets a selection. -/
theorem selectFold_isSome (f : List (ℕ × WithTop ℝ)) (o : List ℕ)
    (acc : Option ℕ × WithTop ℝ) (h : acc.1.isSome) :
    ((o.foldl
      (fun acc nodeId =>
        match f.lookup nodeId with
        | none => acc
        | some score => if score < acc.2 then (some nodeId, score) else acc) acc).1).isSome := by
  induction o generalizing acc with
  | nil => exact h
  | cons n o' ih =>
    simp only [List.foldl_cons]
    apply ih
    match hl : f.lookup n with
    | none => simpa [hl] using h
    | some score =>
      simp only [hl]
      split
      · simp
      · exact h

/-- Whatever the scan returns is either the accumulator or a member of the
list with its own score. -/
theorem selectFold_cases (f : List (ℕ × WithTop ℝ)) (o : List ℕ)
    (acc : Option ℕ × WithTop ℝ) :
    (o.foldl
      (fun acc nodeId =>
        match f.lookup nodeId with
        | none => acc
        | some score => if score < acc.2 then (some nodeId, score) else acc) acc) = acc ∨
    ∃ c ∈ o, ∃ fc, (o.foldl
      (fun acc nodeId =>
        match f.lookup nodeId with
        | none => acc
        | some score => if score < acc.2 then (some nodeId, score) else acc) acc) =
        (some c, fc) ∧ f.lookup c = some fc := by
  induction o generalizing acc with
  | nil => exact Or.inl rfl
  | cons n o' ih =>
    simp only [List.foldl_cons]
    match hl : f.lookup n with
    | none =>
      simp only [hl]
      rcases ih acc with h | ⟨c, hc, fc, he, hf⟩
      · exact Or.inl h
      · exact Or.inr ⟨c, List.mem_cons_of_mem _ hc, fc, he, hf⟩
    | some score =>
      simp only [hl]
      split
      · rcases ih (some n, score) with h | ⟨c, hc, fc, he, hf⟩
        · exact Or.inr ⟨n, List.mem_cons_self n o', score, h, hl⟩
        · exact Or.inr ⟨c, List.mem_cons_of_mem _ hc, fc, he, hf⟩
      · rcases ih acc with h | ⟨c, hc, fc, he, hf⟩
        · exact Or.inl h
        · exact Or.inr ⟨c, List.mem_cons_of_mem _ hc, fc, he, hf⟩

/-- The scan's final score is a lower bound of the accumulator's score and
of every listed member's score. -/
theorem selectFold_min (f : List (ℕ × WithTop ℝ)) (o : List ℕ)
    (acc : Option ℕ × WithTop ℝ) :
    (∀ m ∈ o, ∀ fm, f.lookup m = some fm → ((o.foldl
      (fun acc nodeId =>
        match f.lookup nodeId with
        | none => acc
        | some score => if score < acc.2 then (some nodeId, score) else acc) acc).2) ≤ fm) ∧
    ((o.foldl
      (fun acc nodeId =>
        match f.lookup nodeId with
        | none => acc
        | some score => if score < acc.2 then (some nodeId, score) else acc) acc).2) ≤ acc.2 := by
  induction o generalizing acc with
  | nil => exact ⟨by simp, le_rfl⟩
  | cons n o' ih =>
    simp only [List.foldl_cons]
    match hl : f.lookup n with
    | none =>
      simp only [hl]
      refine ⟨?_, (ih acc).2⟩
      intro m hm fm hfm
      rcases List.mem_cons.mp hm with he | hm'
      · rw [he, hl] at hfm
        cases hfm
      · exact (ih acc).1 m hm' fm hfm
    | some score =>
      simp only [hl]
      split <;> rename_i hlt
      · refine ⟨?_, ?_⟩
        · intro m hm fm hfm
          rcases List.mem_cons.mp hm with he | hm'
          · rw [he, hl] at hfm
            cases hfm
            exact le_trans (ih (some n, score)).2 le_rfl
          · exact (ih (some n, score)).1 m hm' fm hfm
        · exact le_trans (ih (some n, score)).2 (le_of_lt hlt)
      · refine ⟨?_, (ih acc).2⟩
        intro m hm fm hfm
        rcases List.mem_cons.mp hm with he | hm'
        · rw [he, hl] at hfm
          cases hfm
          exact le_trans (ih acc).2 (not_lt.mp hlt)
        · exact (ih acc).1 m hm' fm hfm

/-- On a nonempty open set whose members all carry finite scores, the scan
returns a member whose score is minimal. -/
theorem selectCurrent_spec (f : List (ℕ × WithTop ℝ)) (o : List ℕ) (ho : o ≠ [])
    (hfin : ∀ n ∈ o, ∃ r : ℝ, f.lookup n = some ((r : ℝ) : WithTop ℝ)) :
    ∃ c fc, selectCurrent f o = (some c, fc) ∧ c ∈ o ∧ f.lookup c = some fc ∧
      ∀ m ∈ o, ∀ fm, f.lookup m = some fm → fc ≤ fm := by
  have hsome : ((selectCurrent f o).1).isSome := by
    unfold selectCurrent
    cases o with
    | nil => exact absurd rfl ho
    | cons n o' =>
      simp only [List.foldl_cons]
      obtain ⟨r, hr⟩ := hfin n (List.mem_cons_self n o')
      apply selectFold_isSome
      simp [hr, WithTop.coe_lt_top]
  rcases selectFold_cases f o (none, ⊤) with h | ⟨c, hc, fc, he, hf⟩
  · rw [selectCurrent] at hsome
    rw [h] at hsome
    simp at hsome
  · refine ⟨c, fc, ?_, hc, hf, ?_⟩
    · rw [selectCurrent, he]
    · intro m hm fm hfm
      have := (selectFold_min f o (none, ⊤)).1 m hm fm hfm
      rw [show (o.foldl
        (fun acc nodeId =>
          match f.lookup nodeId with
          | none => acc
          | some score => if score < acc.2 then (some nodeId, score) else acc) ((none : Option ℕ), (⊤ : WithTop ℝ))) = (some c, fc) from he] at this
      exact this

/-- The scan only returns open-set members. -/
theorem selectCurrent_mem (f : List (ℕ × WithTop ℝ)) (o : List ℕ) (c : ℕ)
    (h : (selectCurrent f o).1 = some c) : c ∈ o := by
  rcases selectFold_cases f o (none, ⊤) with h' | ⟨c', hc', fc, he, _⟩
  · rw [selectCurrent] at h
    rw [h'] at h
    cases h
  · rw [selectCurrent] at h
    rw [he] at h
    cases h
    exact hc'

/-! ## Initial-state and key-validity invariant lemmas -/

/-- Lookup after initialising every listed key to a constant score. -/
theorem lookup_foldl_mapSet_const {α : Type} (L : List (ℕ × Node)) (v0 : α) :
    ∀ (m : List (ℕ × α)) (x : ℕ),
    ((L.foldl (fun m kv => mapSet m kv.1 v0) m).lookup x) =
      if x ∈ L.map Prod.fst then some v0 else m.lookup x := by
  induction L with
  | nil => intro m x; simp
  | cons kv t ih =>
    intro m x
    simp only [List.foldl_cons]
    rw [ih]
    by_cases ht : x ∈ t.map Prod.fst
    · simp [ht]
    · rw [if_neg ht, lookup_mapSet]
      by_cases hk : x = kv.1
      · simp [hk]
      · simp only [if_neg hk]
        simp [List.mem_cons, hk, ht]

/-- The initial `gScore` map: zero at the start, `Infinity` at every other
node id, absent elsewhere. -/
theorem initState_gScore (P : AStarPathfinder) (startId : ℕ) (sn gn : Node) (x : ℕ) :
    (initState P startId sn gn).gScore.lookup x =
      if x = startId then some ((0 : ℝ) : WithTop ℝ)
      else if x ∈ P.nodes.map Prod.fst then some ⊤ else none := by
  unfold initState
  rw [lookup_mapSet, lookup_foldl_mapSet_const]
  split_ifs <;> rfl

/-- The initial `fScore` map: the start's heuristic at the start,
`Infinity` at every other node id, absent elsewhere. -/
theorem initState_fScore (P : AStarPathfinder) (startId : ℕ) (sn gn : Node) (x : ℕ) :
    (initState P startId sn gn).fScore.lookup x =
      if x = startId then some ((heuristic sn gn : ℝ) : WithTop ℝ)
      else if x ∈ P.nodes.map Prod.fst then some ⊤ else none := by
  unfold initState
  rw [lookup_mapSet, lookup_foldl_mapSet_const]
  split_ifs <;> rfl

/-- The initial state satisfies the key-validity invariant. -/
theorem initState_basicInv (P : AStarPathfinder) (startId : ℕ) (sn gn : Node)
    (hs : P.nodes.lookup startId = some sn) :
    BasicSearchInv P (initState P startId sn gn) := by
  have hmem : startId ∈ P.nodes.map Prod.fst := by
    rw [← lookup_isSome_iff_mem, hs]
    rfl
  refine ⟨?_, ?_, ?_⟩
  · intro x
    rw [initState_gScore, initState_fScore, lookup_isSome_iff_mem]
    by_cases h1 : x = startId
    · subst h1
      simp [hmem]
    · by_cases h2 : x ∈ P.nodes.map Prod.fst <;> simp [h1, h2]
  · intro n hn
    have : n = startId := by
      simpa [initState] using hn
    subst this
    rw [initState_gScore]
    simp
  · intro n c hc
    have : (initState P startId sn gn).cameFrom = [] := rfl
    rw [this] at hc
    simp [List.lookup] at hc

/-- One neighbour relaxation preserves the key-validity invariant. -/
theorem relaxNeighbor_basicInv (P : AStarPathfinder) (gn : Node) (c : ℕ)
    (st : SearchState) (nb : Link) (h : BasicSearchInv P st) :
    BasicSearchInv P (relaxNeighbor P gn c st nb) := by
  obtain ⟨halign, hopen, hcf⟩ := h
  unfold relaxNeighbor
  cases hgc : st.gScore.lookup c with
  | none =>
    simp only [hgc]
    exact ⟨halign, hopen, hcf⟩
  | some gc =>
    cases hgn : st.gScore.lookup nb.«to» with
    | none =>
      simp only [hgc, hgn]
      exact ⟨halign, hopen, hcf⟩
    | some gnb =>
      simp only [hgc, hgn]
      split
      · refine ⟨?_, ?_, ?_⟩
        · intro x
          simp only [lookup_mapSet]
          by_cases hx : x = nb.«to»
          · subst hx
            have : (P.nodes.lookup nb.«to»).isSome := by
              rw [← (halign nb.«to»).1, hgn]
              rfl
            simp [this]
          · simp only [if_neg hx]
            exact halign x
        · intro n hn
          rw [mem_setAdd] at hn
          simp only [lookup_mapSet]
          rcases hn with rfl | hn'
          · simp
          · by_cases hx : n = nb.«to»
            · simp [hx]
            · simp only [if_neg hx]
              exact hopen n hn'
        · intro n c' hc'
          simp only [lookup_mapSet] at hc'
          constructor
          · simp only [lookup_mapSet]
            by_cases hx : n = nb.«to»
            · simp [hx]
            · simp only [if_neg hx]
              rw [if_neg hx] at hc'
              exact (hcf n c' hc').1
          · simp only [lookup_mapSet]
            by_cases hx : n = nb.«to»
            · rw [if_pos hx] at hc'
              cases hc'
              by_cases hcx : c = nb.«to»
              · simp [hcx]
              · simp only [if_neg hcx]
                rw [hgc]
                rfl
            · rw [if_neg hx] at hc'
              by_cases hcx : c' = nb.«to»
              · simp [hcx]
              · simp only [if_neg hcx]
                exact (hcf n c' hc').2
      · exact ⟨halign, hopen, hcf⟩

/-- The full neighbour loop preserves the key-validity invariant. -/
theorem foldRelax_basicInv (P : AStarPathfinder) (gn : Node) (c : ℕ)
    (L : List Link) : ∀ (st : SearchState), BasicSearchInv P st →
    BasicSearchInv P (L.foldl (relaxNeighbor P gn c) st) := by
  induction L with
  | nil => intro st h; exact h
  | cons e t ih =>
    intro st h
    simp only [List.foldl_cons]
    exact ih _ (relaxNeighbor_basicInv P gn c st e h)

/-- A whole expansion step preserves the key-validity invariant. -/
theorem expandCurrent_basicInv (P : AStarPathfinder) (gn : Node) (st : SearchState)
    (cur : Option ℕ) (h : BasicSearchInv P st) :
    BasicSearchInv P (expandCurrent P gn st cur) := by
  unfold expandCurrent
  match cur with
  | none => exact h
  | some c =>
    apply foldRelax_basicInv
    obtain ⟨halign, hopen, hcf⟩ := h
    exact ⟨halign, fun n hn => hopen n (List.mem_of_mem_erase hn), hcf⟩

/-- A continuing loop step preserves the key-validity invariant. -/
theorem loopStep_basicInv (P : AStarPathfinder) (goalId : ℕ) (gn : Node)
    (s1 s2 : SearchState) (hstep : LoopStep P goalId gn s1 s2)
    (h : BasicSearchInv P s1) : BasicSearchInv P s2 := by
  unfold LoopStep loopIter at hstep
  by_cases h1 : s1.openSet = []
  · simp [h1] at hstep
  · rw [if_neg h1] at hstep
    by_cases h2 : (selectCurrent s1.fScore s1.openSet).1 = some goalId
    · simp [h2] at hstep
    · rw [if_neg h2] at hstep
      cases hstep
      exact expandCurrent_basicInv P gn s1 _ h

/-- Every reachable loop state satisfies the key-validity invariant. -/
theorem reaches_basicInv (P : AStarPathfinder) (startId goalId : ℕ) (sn gn : Node)
    (hs : P.nodes.lookup startId = some sn) (s : SearchState)
    (hr : ReachesState P startId goalId sn gn s) : BasicSearchInv P s := by
  induction hr with
  | refl => exact initState_basicInv P startId sn gn hs
  | tail _ hstep ih => exact loopStep_basicInv P goalId gn _ _ hstep ih

/-! ## Claim C4 -/

/-- Every id on a reconstructed path is a node-map key, provided the
`cameFrom` entries relate node-map keys and the final id is one. -/
theorem reconstructPath_mem_nodes (P : AStarPathfinder) (cf : List (ℕ × ℕ))
    (hvalid : ∀ n c, cf.lookup n = some c →
      (P.nodes.lookup n).isSome ∧ (P.nodes.lookup c).isSome) :
    ∀ (fuel : ℕ) (cur : ℕ) (p : List ℕ), reconstructPath cf fuel cur = some p →
      (P.nodes.lookup cur).isSome → ∀ x ∈ p, (P.nodes.lookup x).isSome := by
  intro fuel
  induction fuel with
  | zero => intro cur p hp; cases hp
  | succ fuel ih =>
    intro cur p hp hcur x hx
    rw [reconstructPath] at hp
    cases hcf : cf.lookup cur with
    | none =>
      simp only [hcf] at hp
      cases hp
      have hxc : x = cur := List.mem_singleton.mp hx
      subst hxc
      exact hcur
    | some prev =>
      simp only [hcf] at hp
      cases hq : reconstructPath cf fuel prev with
      | none => simp [hq] at hp
      | some q =>
        rw [hq] at hp
        simp only [Option.map_some'] at hp
        cases hp
        rcases List.mem_append.mp hx with hx' | hx'
        · exact ih prev q hq (hvalid cur prev hcf).2 x hx'
        · have hxc : x = cur := List.mem_singleton.mp hx'
          subst hxc
          exact hcur

/-- The same for the fuel-driver of the reconstruction loop. -/
theorem reconstructPathRun_mem_nodes (P : AStarPathfinder) (cf : List (ℕ × ℕ))
    (hvalid : ∀ n c, cf.lookup n = some c →
      (P.nodes.lookup n).isSome ∧ (P.nodes.lookup c).isSome)
    (cur : ℕ) (p : List ℕ) (hp : reconstructPathRun cf cur = some p)
    (hcur : (P.nodes.lookup cur).isSome) : ∀ x ∈ p, (P.nodes.lookup x).isSome := by
  unfold reconstructPathRun at hp
  by_cases hex : ∃ fuel, (reconstructPath cf fuel cur).isSome
  · rw [dif_pos hex] at hp
    exact reconstructPath_mem_nodes P cf hvalid _ cur p hp hcur
  · rw [dif_neg hex] at hp
    cases hp

/-- Every id on a successful loop result is a node-map key. -/
theorem findPathLoop_mem_nodes (P : AStarPathfinder) (goalId : ℕ) (gn : Node)
    (hgoal : (P.nodes.lookup goalId).isSome) :
    ∀ (fuel : ℕ) (s : SearchState) (p : List ℕ), BasicSearchInv P s →
      findPathLoop P goalId gn fuel s = some p → ∀ x ∈ p, (P.nodes.lookup x).isSome := by
  intro fuel
  induction fuel with
  | zero => intro s p _ hp; cases hp
  | succ fuel ih =>
    intro s p hinv hp
    rw [findPathLoop] at hp
    cases hit : loopIter P goalId gn s with
    | inl r =>
      rw [hit] at hp
      unfold loopIter at hit
      by_cases h1 : s.openSet = []
      · rw [if_pos h1] at hit
        cases hit
        have hp2 : (some [] : Option (List ℕ)) = some p := hp
        cases hp2
        intro x hx
        cases hx
      · rw [if_neg h1] at hit
        by_cases h2 : (selectCurrent s.fScore s.openSet).1 = some goalId
        · rw [if_pos h2] at hit
          cases hit
          have hp2 : reconstructPathRun s.cameFrom goalId = some p := hp
          exact reconstructPathRun_mem_nodes P s.cameFrom
            (fun n c hc => by
              obtain ⟨halign, _, hcf⟩ := hinv
              obtain ⟨hn, hc'⟩ := hcf n c hc
              exact ⟨(halign n).1.mp hn, (halign c).1.mp hc'⟩)
            goalId p hp2 hgoal
        · rw [if_neg h2] at hit
          cases hit
    | inr s2 =>
      rw [hit] at hp
      exact ih s2 p (loopStep_basicInv P goalId gn s s2 hit hinv) hp

/-- Claim C4: an absent start or goal id makes `findPath` return the empty
sequence with the graph state unchanged; the method never mutates the
node or adjacency maps; in every reachable loop state the open set holds
only node-map keys (so a dangling link endpoint is never selected for
expansion); and every id on a returned path is a node-map key. -/
theorem claim_C4_absent_and_dangling (P : AStarPathfinder) (startId goalId : ℕ) :
    ((P.nodes.lookup startId = none ∨ P.nodes.lookup goalId = none) →
      findPathM P startId goalId = (some [], P)) ∧
    ((findPathM P startId goalId).2 = P) ∧
    (∀ startNode goalNode, P.nodes.lookup startId = some startNode →
      P.nodes.lookup goalId = some goalNode →
      ∀ s, ReachesState P startId goalId startNode goalNode s →
        (∀ n ∈ s.openSet, (P.nodes.lookup n).isSome) ∧
        (∀ c, (selectCurrent s.fScore s.openSet).1 = some c →
          (P.nodes.lookup c).isSome)) ∧
    (∀ p, findPath P startId goalId = some p → ∀ x ∈ p, (P.nodes.lookup x).isSome) := by
  refine ⟨?_, rfl, ?_, ?_⟩
  · intro h
    unfold findPathM findPath
    rcases h with h | h
    · rw [h]
    · rw [h]
      cases P.nodes.lookup startId <;> rfl
  · intro sn gn hs hg s hr
    have hinv := reaches_basicInv P startId goalId sn gn hs s hr
    obtain ⟨halign, hopen, _⟩ := hinv
    refine ⟨?_, ?_⟩
    · intro n hn
      exact (halign n).1.mp (hopen n hn)
    · intro c hc
      exact (halign c).1.mp (hopen c (selectCurrent_mem s.fScore s.openSet c hc))
  · intro p hp x hx
    unfold findPath at hp
    cases hs : P.nodes.lookup startId with
    | none =>
      rw [hs] at hp
      cases hp
      cases hx
    | some sn =>
      cases hg : P.nodes.lookup goalId with
      | none =>
        rw [hs, hg] at hp
        cases hp
        cases hx
      | some gn =>
        simp only [hs, hg] at hp
        by_cases heq : startId = goalId
        · rw [if_pos heq] at hp
          cases hp
          have hxc : x = startId := List.mem_singleton.mp hx
          subst hxc
          rw [hs]
          rfl
        · rw [if_neg heq] at hp
          by_cases hex : ∃ fuel,
              (findPathLoop P goalId gn fuel (initState P startId sn gn)).isSome
          · rw [dif_pos hex] at hp
            exact findPathLoop_mem_nodes P goalId gn (by rw [hg]; rfl) _ _ p
              (initState_basicInv P startId sn gn hs) hp x hx
          · rw [dif_neg hex] at hp
            cases hp

/-- Witness for claim C4: the empty graph with ids `0`, `1`. -/
theorem claim_C4_absent_and_dangling_witness :
    findPathM mkAStarPathfinder 0 1 = (some [], mkAStarPathfinder) :=
  (claim_C4_absent_and_dangling mkAStarPathfinder 0 1).1 (Or.inl (by simp [mkAStarPathfinder]))

/-! ## Walk, path and heuristic lemmas -/

/-- Peeling the first step off `walkEnd`. -/
theorem walkEnd_cons (a : ℕ) (st : ℕ × ℝ) (rest : List (ℕ × ℝ)) :
    walkEnd a (st :: rest) = walkEnd st.1 rest := by
  unfold walkEnd
  rw [List.map_cons, List.getLastD_cons]

/-- Walks compose with a final step. -/
theorem walkSteps_append_one (P : AStarPathfinder) :
    ∀ (steps : List (ℕ × ℝ)) (a v : ℕ) (d : ℝ), WalkSteps P a steps →
      HasLink P (walkEnd a steps) v d → WalkSteps P a (steps ++ [(v, d)]) := by
  intro steps
  induction steps with
  | nil =>
    intro a v d _ hl
    exact ⟨hl, trivial⟩
  | cons st rest ih =>
    intro a v d hw hl
    obtain ⟨h1, h2⟩ := hw
    refine ⟨h1, ih st.1 v d h2 ?_⟩
    rwa [walkEnd_cons] at hl

/-- The end of an extended walk. -/
theorem walkEnd_append_one (a v : ℕ) (d : ℝ) (steps : List (ℕ × ℝ)) :
    walkEnd a (steps ++ [(v, d)]) = v := by
  simp [walkEnd]

/-- The weight of an extended walk. -/
theorem walkWeight_append_one (v : ℕ) (d : ℝ) (steps : List (ℕ × ℝ)) :
    walkWeight (steps ++ [(v, d)]) = walkWeight steps + d := by
  simp [walkWeight]

/-- Walk prefixes are walks. -/
theorem walkSteps_take (P : AStarPathfinder) :
    ∀ (steps : List (ℕ × ℝ)) (a : ℕ) (k : ℕ), WalkSteps P a steps →
      WalkSteps P a (steps.take k) := by
  intro steps
  induction steps with
  | nil => intro a k _; simp [WalkSteps]
  | cons st rest ih =>
    intro a k hw
    cases k with
    | zero => trivial
    | succ k => exact ⟨hw.1, ih st.1 k hw.2⟩

/-- Walk suffixes are walks out of the cut point. -/
theorem walkSteps_drop (P : AStarPathfinder) :
    ∀ (steps : List (ℕ × ℝ)) (a : ℕ) (k : ℕ), WalkSteps P a steps →
      WalkSteps P (walkEnd a (steps.take k)) (steps.drop k) := by
  intro steps
  induction steps with
  | nil => intro a k _; simp [WalkSteps]
  | cons st rest ih =>
    intro a k hw
    cases k with
    | zero => exact hw
    | succ k =>
      rw [List.take_succ_cons, List.drop_succ_cons, walkEnd_cons]
      exact ih st.1 k hw.2

/-- Splitting a walk's weight at a cut point. -/
theorem walkWeight_take_drop (steps : List (ℕ × ℝ)) (k : ℕ) :
    walkWeight steps = walkWeight (steps.take k) + walkWeight (steps.drop k) := by
  unfold walkWeight
  rw [← List.sum_append, ← List.map_append, List.take_append_drop]

/-- Walks with nonnegative link distances have nonnegative weight. -/
theorem walkWeight_nonneg (P : AStarPathfinder) (hd : NonnegLinks P) :
    ∀ (steps : List (ℕ × ℝ)) (a : ℕ), WalkSteps P a steps → 0 ≤ walkWeight steps := by
  intro steps
  induction steps with
  | nil => intro a _; simp [walkWeight]
  | cons st rest ih =>
    intro a hw
    obtain ⟨⟨l, hl, hm⟩, h2⟩ := hw
    have hd0 : 0 ≤ st.2 := by
      have := hd a l hl ⟨st.1, st.2⟩ hm
      simpa using this
    have hsum : 0 ≤ walkWeight rest := ih st.1 h2
    have e : walkWeight (st :: rest) = st.2 + walkWeight rest := by
      simp [walkWeight]
    rw [e]
    linarith

/-- A walk induces a `LinkPath` over its visited nodes. -/
theorem linkPath_of_walkSteps (P : AStarPathfinder) :
    ∀ (steps : List (ℕ × ℝ)) (a : ℕ), WalkSteps P a steps →
      LinkPath P a (walkEnd a steps) (walkNodes a steps) (walkWeight steps) := by
  intro steps
  induction steps with
  | nil =>
    intro a _
    simpa [walkEnd, walkNodes, walkWeight] using LinkPath.nil (P := P) a
  | cons st rest ih =>
    intro a hw
    have tail := ih st.1 hw.2
    have head : HasLink P a st.1 st.2 := hw.1
    have e1 : walkEnd a (st :: rest) = walkEnd st.1 rest := walkEnd_cons a st rest
    have e2 : walkNodes a (st :: rest) = a :: walkNodes st.1 rest := by
      simp [walkNodes]
    have e3 : walkWeight (st :: rest) = st.2 + walkWeight rest := by
      simp [walkWeight]
    rw [e1, e2, e3]
    exact LinkPath.cons a st.1 (walkEnd st.1 rest) (walkNodes st.1 rest) st.2
      (walkWeight rest) head tail

/-- Conversely, every `LinkPath` comes from a walk. -/
theorem walkSteps_of_linkPath (P : AStarPathfinder) (a b : ℕ) (q : List ℕ) (w : ℝ)
    (h : LinkPath P a b q w) : ∃ steps, WalkSteps P a steps ∧ walkEnd a steps = b ∧
      walkNodes a steps = q ∧ walkWeight steps = w := by
  induction h with
  | nil a => exact ⟨[], trivial, rfl, rfl, by simp [walkWeight]⟩
  | cons a b c p d w hl hp ih =>
    obtain ⟨steps, hw, hend, hnodes, hwt⟩ := ih
    refine ⟨(b, d) :: steps, ⟨hl, hw⟩, ?_, ?_, ?_⟩
    · rw [walkEnd_cons]
      exact hend
    · have e : walkNodes a ((b, d) :: steps) = a :: walkNodes b steps := by
        simp [walkNodes]
      rw [e, hnodes]
    · have e : walkWeight ((b, d) :: steps) = d + walkWeight steps := by
        simp [walkWeight]
      rw [e, hwt]

/-- A `LinkPath` extends by one stored link. -/
theorem linkPath_append_one (P : AStarPathfinder) (a b c : ℕ) (q : List ℕ) (w d : ℝ)
    (h : LinkPath P a b q w) (hl : HasLink P b c d) :
    LinkPath P a c (q ++ [c]) (w + d) := by
  induction h with
  | nil a =>
    have := LinkPath.cons a c c [c] d 0 hl (LinkPath.nil c)
    simpa using this
  | cons a b' c' p d' w' hl' hp ih =>
    have := LinkPath.cons a b' c (p ++ [c]) d' (w' + d) hl' (ih hl)
    simpa [add_assoc] using this

/-- The first element of a `LinkPath` is its source. -/
theorem linkPath_head (P : AStarPathfinder) (a b : ℕ) (q : List ℕ) (w : ℝ)
    (h : LinkPath P a b q w) : q.head? = some a := by
  cases h with
  | nil => rfl
  | cons => rfl

/-- The last element of a `LinkPath` is its target. -/
theorem linkPath_getLast (P : AStarPathfinder) (a b : ℕ) (q : List ℕ) (w : ℝ)
    (h : LinkPath P a b q w) : q.getLast? = some b := by
  induction h with
  | nil a => rfl
  | cons a b' c p d w hl hp ih =>
    cases hp with
    | nil _ => simpa using ih
    | cons _ b'' _ p' _ _ _ _ => simpa [List.getLast?_cons_cons] using ih

/-- The heuristic as the modulus of a complex difference. -/
theorem heuristic_eq_complexAbs (nodeA nodeB : Node) :
    heuristic nodeA nodeB =
      Complex.abs (Complex.mk nodeA.x nodeA.y - Complex.mk nodeB.x nodeB.y) := by
  unfold heuristic
  rw [Complex.abs_apply, Complex.normSq_apply]
  rfl

/-- The heuristic of a node against itself is zero. -/
theorem heuristic_self (nd : Node) : heuristic nd nd = 0 := by
  unfold heuristic
  simp

/-- The heuristic is nonnegative. -/
theorem heuristic_nonneg (nodeA nodeB : Node) : 0 ≤ heuristic nodeA nodeB := by
  unfold heuristic
  exact Real.sqrt_nonneg _

/-- The triangle inequality for the Euclidean heuristic. -/
theorem heuristic_triangle (n1 n2 n3 : Node) :
    heuristic n1 n3 ≤ heuristic n1 n2 + heuristic n2 n3 := by
  rw [heuristic_eq_complexAbs, heuristic_eq_complexAbs, heuristic_eq_complexAbs]
  exact Complex.abs.sub_le _ _ _

/-! ## Relaxation case analysis -/

/-- One neighbour relaxation either leaves the state unchanged or performs
the four-map update, with a finite current score and a strict
improvement. -/
theorem relaxNeighbor_cases (P : AStarPathfinder) (gn : Node) (c : ℕ)
    (st : SearchState) (e : Link) :
    relaxNeighbor P gn c st e = st ∨
    ∃ (rc : ℝ) (gnb : WithTop ℝ),
      st.gScore.lookup c = some ((rc : ℝ) : WithTop ℝ) ∧
      st.gScore.lookup e.«to» = some gnb ∧
      ((rc + e.distance : ℝ) : WithTop ℝ) < gnb ∧
      relaxNeighbor P gn c st e =
        { st with
          cameFrom := mapSet st.cameFrom e.«to» c
          gScore := mapSet st.gScore e.«to» ((rc + e.distance : ℝ) : WithTop ℝ)
          fScore := mapSet st.fScore e.«to»
            ((rc + e.distance +
              heuristic ((P.nodes.lookup e.«to»).getD ⟨e.«to», 0, 0⟩) gn : ℝ) : WithTop ℝ)
          openSet := setAdd st.openSet e.«to» } := by
  unfold relaxNeighbor
  cases hgc : st.gScore.lookup c with
  | none => exact Or.inl (by simp [hgc])
  | some gc =>
    cases hgn : st.gScore.lookup e.«to» with
    | none => exact Or.inl (by simp [hgc, hgn])
    | some gnb =>
      by_cases hlt : gc + (e.distance : WithTop ℝ) < gnb
      · cases gc with
        | top =>
          exfalso
          rw [top_add] at hlt
          exact (not_top_lt hlt)
        | coe rc =>
          right
          refine ⟨rc, gnb, rfl, rfl, ?_, ?_⟩
          · rw [← WithTop.coe_add] at hlt
            exact hlt
          · simp only [hgn]
            rw [if_pos hlt]
            simp only [WithTop.coe_add]
      · exact Or.inl (by simp [hgc, hgn, hlt])

/-- Relaxation never touches the keys of the score maps, and scores only
decrease. -/
theorem relaxNeighbor_g_mono (P : AStarPathfinder) (gn : Node) (c : ℕ)
    (st : SearchState) (e : Link) :
    (∀ x, (((relaxNeighbor P gn c st e).gScore.lookup x).isSome ↔
      (st.gScore.lookup x).isSome)) ∧
    (∀ x gx', (relaxNeighbor P gn c st e).gScore.lookup x = some gx' →
      ∃ gx, st.gScore.lookup x = some gx ∧ gx' ≤ gx) := by
  rcases relaxNeighbor_cases P gn c st e with h | ⟨rc, gnb, hgc, hgn, hlt, h⟩
  · rw [h]
    exact ⟨fun x => Iff.rfl, fun x gx' hx => ⟨gx', hx, le_rfl⟩⟩
  · rw [h]
    constructor
    · intro x
      simp only [lookup_mapSet]
      by_cases hx : x = e.«to»
      · subst hx
        simp [hgn]
      · simp [hx]
    · intro x gx' hx
      simp only [lookup_mapSet] at hx
      by_cases hxe : x = e.«to»
      · subst hxe
        rw [if_pos rfl] at hx
        cases hx
        exact ⟨gnb, hgn, le_of_lt hlt⟩
      · rw [if_neg hxe] at hx
        exact ⟨gx', hx, le_rfl⟩

/-- With a nonnegative link distance the score of the expanded node
survives its own relaxation step. -/
theorem relaxNeighbor_gc_fixed (P : AStarPathfinder) (gn : Node) (c : ℕ)
    (st : SearchState) (e : Link) (hd : 0 ≤ e.distance) (rc : ℝ)
    (hgc : st.gScore.lookup c = some ((rc : ℝ) : WithTop ℝ)) :
    (relaxNeighbor P gn c st e).gScore.lookup c = some ((rc : ℝ) : WithTop ℝ) := by
  rcases relaxNeighbor_cases P gn c st e with h | ⟨rc', gnb, hgc', hgn, hlt, h⟩
  · rw [h]
    exact hgc
  · rw [h]
    simp only [lookup_mapSet]
    by_cases hce : c = e.«to»
    · exfalso
      rw [← hce] at hgn
      rw [hgc] at hgc'
      cases hgc'
      rw [hgc] at hgn
      cases hgn
      have : (rc : WithTop ℝ) ≤ ((rc + e.distance : ℝ) : WithTop ℝ) := by
        rw [WithTop.coe_le_coe]
        linarith
      exact absurd hlt (not_lt.mpr this)
    · rw [if_neg hce]
      exact hgc

/-- Relaxation only grows the open set, and only by the relaxed target. -/
theorem relaxNeighbor_open (P : AStarPathfinder) (gn : Node) (c : ℕ)
    (st : SearchState) (e : Link) :
    (∀ x ∈ st.openSet, x ∈ (relaxNeighbor P gn c st e).openSet) ∧
    (∀ x ∈ (relaxNeighbor P gn c st e).openSet, x ∈ st.openSet ∨ x = e.«to») := by
  rcases relaxNeighbor_cases P gn c st e with h | ⟨rc, gnb, hgc, hgn, hlt, h⟩
  · rw [h]
    exact ⟨fun x hx => hx, fun x hx => Or.inl hx⟩
  · rw [h]
    constructor
    · intro x hx
      simp only [mem_setAdd]
      exact Or.inr hx
    · intro x hx
      simp only [mem_setAdd] at hx
      exact hx.symm

/-! ## Weight candidates and rank lemmas -/

/-- A successful lookup comes from a stored binding. -/
theorem mem_of_lookup {α : Type} (m : List (ℕ × α)) (k : ℕ) (v : α)
    (h : m.lookup k = some v) : (k, v) ∈ m := by
  induction m with
  | nil => simp [List.lookup] at h
  | cons hd t ih =>
    rcases hd with ⟨k0, v0⟩
    rw [lookup_cons_eq_if] at h
    by_cases hk : k = k0
    · rw [if_pos hk] at h
      cases h
      subst hk
      exact List.mem_cons_self _ _
    · rw [if_neg hk] at h
      exact List.mem_cons_of_mem _ (ih h)

/-- Each link entry of a walk is listed in `linkEntryList`. -/
theorem walk_step_mem_entries (P : AStarPathfinder) :
    ∀ (steps : List (ℕ × ℝ)) (a : ℕ), WalkSteps P a steps →
      ∀ x ∈ steps, x ∈ linkEntryList P := by
  intro steps
  induction steps with
  | nil => intro a _ x hx; cases hx
  | cons st rest ih =>
    intro a hw x hx
    rcases List.mem_cons.mp hx with rfl | hx'
    · obtain ⟨⟨l, hl, hm⟩, _⟩ := hw
      unfold linkEntryList
      rw [List.mem_map]
      refine ⟨⟨x.1, x.2⟩, ?_, rfl⟩
      rw [List.mem_flatten]
      exact ⟨l, List.mem_map.mpr ⟨(a, l), mem_of_lookup _ _ _ hl, rfl⟩, hm⟩
    · exact ih st.1 hw.2 x hx'

/-- The weight of a duplicate-free walk is a candidate weight. -/
theorem nodupWalk_weight_mem (P : AStarPathfinder) (steps : List (ℕ × ℝ)) (a : ℕ)
    (hw : WalkSteps P a steps) (hnd : (walkNodes a steps).Nodup) :
    walkWeight steps ∈ weightCandidates P := by
  classical
  have hsteps_nd : steps.Nodup := by
    have h1 : (walkNodes a steps).Nodup := hnd
    unfold walkNodes at h1
    exact (List.nodup_cons.mp h1).2.of_map
  have hsub : steps ⊆ linkEntryList P := fun x hx => walk_step_mem_entries P steps a hw x hx
  have hsp : List.Subperm steps (linkEntryList P) :=
    List.subperm_of_subset hsteps_nd hsub
  obtain ⟨t, hperm, hsl⟩ := hsp
  unfold weightCandidates
  rw [List.mem_toFinset, List.mem_map]
  refine ⟨t, List.mem_sublists.mpr hsl, ?_⟩
  unfold walkWeight
  exact (hperm.map Prod.snd).sum_eq

/-- Rank is monotone under pointwise score decrease with fixed keys. -/
theorem gRank_mono (P : AStarPathfinder) (s' s : SearchState) (x : ℕ)
    (hkeys : ((s'.gScore.lookup x).isSome ↔ (s.gScore.lookup x).isSome))
    (hmono : ∀ gx', s'.gScore.lookup x = some gx' →
      ∃ gx, s.gScore.lookup x = some gx ∧ gx' ≤ gx) :
    gRank P s' x ≤ gRank P s x := by
  classical
  unfold gRank
  apply Finset.card_le_card
  intro w hw
  rw [Finset.mem_filter] at hw ⊢
  refine ⟨hw.1, ?_⟩
  have hw2 := hw.2
  cases h' : s'.gScore.lookup x with
  | none =>
    have hnone : s.gScore.lookup x = none := by
      rw [← Option.not_isSome_iff_eq_none] at h' ⊢
      intro hc
      exact h' (hkeys.mpr hc)
    rw [hnone]
    simp [WithTop.coe_lt_top]
  | some gx' =>
    obtain ⟨gx, hgx, hle⟩ := hmono gx' h'
    rw [h'] at hw2
    rw [hgx]
    simp only [Option.getD_some] at hw2 ⊢
    exact lt_of_lt_of_le hw2 hle

/-- Rank drops strictly when a node's score strictly improves to a
candidate weight. -/
theorem gRank_strict (P : AStarPathfinder) (s' s : SearchState) (x : ℕ) (r' : ℝ)
    (h' : s'.gScore.lookup x = some ((r' : ℝ) : WithTop ℝ))
    (hmem : r' ∈ weightCandidates P)
    (hlt : ((r' : ℝ) : WithTop ℝ) < (s.gScore.lookup x).getD ⊤) :
    gRank P s' x < gRank P s x := by
  classical
  unfold gRank
  apply Finset.card_lt_card
  rw [Finset.ssubset_iff_of_subset]
  · exact ⟨r', by
      rw [Finset.mem_filter]
      constructor
      · exact hmem
      · exact hlt, by
      rw [Finset.mem_filter]
      rintro ⟨_, hcontr⟩
      rw [h'] at hcontr
      simp only [Option.getD_some] at hcontr
      exact absurd hcontr (lt_irrefl _)⟩
  · intro w hw
    rw [Finset.mem_filter] at hw ⊢
    refine ⟨hw.1, ?_⟩
    have hw2 := hw.2
    rw [h'] at hw2
    simp only [Option.getD_some] at hw2
    exact lt_trans hw2 hlt

/-! ## More walk lemmas and relaxation facts -/

/-- Every visited node of a walk is the end of one of its prefixes. -/
theorem mem_walkNodes_exists_take :
    ∀ (steps : List (ℕ × ℝ)) (a x : ℕ), x ∈ walkNodes a steps →
      ∃ k ≤ steps.length, walkEnd a (steps.take k) = x := by
  intro steps
  induction steps with
  | nil =>
    intro a x hx
    have : x = a := by simpa [walkNodes] using hx
    exact ⟨0, Nat.zero_le _, by simpa [walkEnd] using this.symm⟩
  | cons st rest ih =>
    intro a x hx
    have hx' : x = a ∨ x ∈ walkNodes st.1 rest := by
      have e : walkNodes a (st :: rest) = a :: walkNodes st.1 rest := by
        simp [walkNodes]
      rw [e] at hx
      exact List.mem_cons.mp hx
    rcases hx' with rfl | hx'
    · exact ⟨0, Nat.zero_le _, by simp [walkEnd]⟩
    · obtain ⟨k, hk, he⟩ := ih st.1 x hx'
      refine ⟨k + 1, by simpa using Nat.succ_le_succ hk, ?_⟩
      rw [List.take_succ_cons, walkEnd_cons]
      exact he

/-- With nonnegative distances a walk prefix weighs at most the walk. -/
theorem walkWeight_take_le (P : AStarPathfinder) (hnn : NonnegLinks P)
    (steps : List (ℕ × ℝ)) (a : ℕ) (hw : WalkSteps P a steps) (k : ℕ) :
    walkWeight (steps.take k) ≤ walkWeight steps := by
  have hsplit := walkWeight_take_drop steps k
  have hdrop := walkWeight_nonneg P hnn (steps.drop k) _ (walkSteps_drop P steps a k hw)
  linarith

/-- After relaxing a link out of `c`, the target's score is at most the
source's score plus the link distance. -/
theorem relaxNeighbor_edge_relaxed (P : AStarPathfinder) (gn : Node) (c : ℕ)
    (st : SearchState) (e : Link) (rc : ℝ)
    (hgc : st.gScore.lookup c = some ((rc : ℝ) : WithTop ℝ)) :
    ∀ ge', (relaxNeighbor P gn c st e).gScore.lookup e.«to» = some ge' →
      ge' ≤ ((rc + e.distance : ℝ) : WithTop ℝ) := by
  intro ge' hge'
  rcases relaxNeighbor_cases P gn c st e with h | ⟨rc', gnb, hgc', hgn, hlt, h⟩
  · rw [h] at hge'
    unfold relaxNeighbor at h
    rw [hgc] at h
    cases hgn : st.gScore.lookup e.«to» with
    | none =>
      rw [hgn] at hge'
      cases hge'
    | some gnb =>
      simp only [hgn] at h
      rw [hgn] at hge'
      cases hge'
      by_cases hlt : ((rc : ℝ) : WithTop ℝ) + (e.distance : WithTop ℝ) < ge'
      · rw [if_pos hlt] at h
        exfalso
        have hne : setAdd st.openSet e.«to» = st.openSet := congrArg SearchState.openSet h
        have hg : mapSet st.gScore e.«to»
            (((rc : ℝ) : WithTop ℝ) + (e.distance : WithTop ℝ)) = st.gScore :=
          congrArg SearchState.gScore h
        have : (mapSet st.gScore e.«to»
            (((rc : ℝ) : WithTop ℝ) + (e.distance : WithTop ℝ))).lookup e.«to» =
            st.gScore.lookup e.«to» := by rw [hg]
        rw [lookup_mapSet, if_pos rfl, hgn] at this
        cases this
        rw [← WithTop.coe_add] at hlt
        exact absurd hlt (lt_irrefl _)
      · rw [← WithTop.coe_add] at hlt
        exact not_lt.mp hlt
  · rw [hgc] at hgc'
    cases hgc'
    rw [h] at hge'
    simp only [lookup_mapSet, if_pos rfl] at hge'
    cases hge'
    exact le_rfl

/-- The end of any prefix of a walk is a visited node. -/
theorem walkEnd_take_mem :
    ∀ (steps : List (ℕ × ℝ)) (a : ℕ) (k : ℕ),
      walkEnd a (steps.take k) ∈ walkNodes a steps := by
  intro steps
  induction steps with
  | nil =>
    intro a k
    simp [walkEnd, walkNodes]
  | cons st rest ih =>
    intro a k
    cases k with
    | zero =>
      simp [walkEnd, walkNodes]
    | succ k =>
      rw [List.take_succ_cons, walkEnd_cons]
      have e : walkNodes a (st :: rest) = a :: walkNodes st.1 rest := by
        simp [walkNodes]
      rw [e]
      exact List.mem_cons_of_mem _ (ih st.1 k)

/-- One neighbour relaxation preserves the core loop invariant. -/
theorem relaxNeighbor_invCore (P : AStarPathfinder) (startId : ℕ) (gn : Node) (c : ℕ)
    (st : SearchState) (e : Link)
    (hnn : NonnegLinks P) (hlink : HasLink P c e.«to» e.distance)
    (hinv : AStarInvCore P startId gn st) :
    AStarInvCore P startId gn (relaxNeighbor P gn c st e) := by
  obtain ⟨hal, hnodup, hof, hcert, hfl, hcfe, hacc, hcft, hsz⟩ := hinv
  have hd : 0 ≤ e.distance := by
    obtain ⟨l, hl, hm⟩ := hlink
    exact hnn c l hl _ hm
  rcases relaxNeighbor_cases P gn c st e with h | ⟨rc, gnb, hgc, hgn, hlt, h⟩
  · rw [h]
    exact ⟨hal, hnodup, hof, hcert, hfl, hcfe, hacc, hcft, hsz⟩
  · obtain ⟨stepsC, hwC, hendC, hwtC, hndC, hprefC⟩ := hcert c rc hgc
    have hrc_nonneg : 0 ≤ rc := by
      rw [← hwtC]
      exact walkWeight_nonneg P hnn stepsC startId hwC
    have hc_ne : c ≠ e.«to» := by
      intro hcontr
      rw [hcontr, hgn] at hgc
      cases hgc
      rw [WithTop.coe_lt_coe] at hlt
      linarith
    have hne_start : e.«to» ≠ startId := by
      intro hcontr
      rw [hcontr, hsz] at hgn
      cases hgn
      rw [WithTop.coe_lt_coe] at hlt
      linarith
    have hnd : ∃ nd, P.nodes.lookup e.«to» = some nd := by
      rw [← Option.isSome_iff_exists]
      apply (hal e.«to»).1.mp
      rw [hgn]
      rfl
    obtain ⟨nd, hnd⟩ := hnd
    have hnb_notin : e.«to» ∉ walkNodes startId stepsC := by
      intro hmem
      obtain ⟨k, hk, hke⟩ := mem_walkNodes_exists_take stepsC startId _ hmem
      obtain ⟨q, hq, hqle⟩ := hprefC k hk
      rw [hke, hgn] at hq
      cases hq
      have h1 : q ≤ rc := by
        rw [← hwtC]
        exact le_trans hqle (walkWeight_take_le P hnn stepsC startId hwC k)
      rw [WithTop.coe_lt_coe] at hlt
      linarith
    rw [h]
    refine ⟨?_, ?_, ?_, ?_, ?_, ?_, ?_, ?_, ?_⟩
    · intro x
      simp only [lookup_mapSet]
      by_cases hx : x = e.«to»
      · subst hx
        simp [hnd]
      · simp only [if_neg hx]
        exact hal x
    · exact nodup_setAdd _ _ hnodup
    · intro n hn
      rw [mem_setAdd] at hn
      rcases hn with rfl | hn'
      · exact ⟨rc + e.distance, by simp [lookup_mapSet]⟩
      · by_cases hx : n = e.«to»
        · exact ⟨rc + e.distance, by rw [lookup_mapSet, if_pos hx]⟩
        · rw [lookup_mapSet, if_neg hx]
          exact hof n hn'
    · intro n r hnr
      simp only [lookup_mapSet] at hnr
      by_cases hx : n = e.«to»
      · rw [if_pos hx] at hnr
        injection hnr with hr
        have hr' : rc + e.distance = r := WithTop.coe_eq_coe.mp hr
        refine ⟨stepsC ++ [(e.«to», e.distance)], ?_, ?_, ?_, ?_, ?_⟩
        · apply walkSteps_append_one P stepsC startId e.«to» e.distance hwC
          rw [hendC]
          exact hlink
        · rw [walkEnd_append_one]
          exact hx.symm
        · rw [walkWeight_append_one, hwtC]
          exact hr'
        · have e2 : walkNodes startId (stepsC ++ [(e.«to», e.distance)]) =
              walkNodes startId stepsC ++ [e.«to»] := by
            simp [walkNodes]
          rw [e2]
          rw [List.nodup_append]
          exact ⟨hndC, List.nodup_singleton _,
            by simpa [List.disjoint_right] using hnb_notin⟩
        · intro k hk
          rw [List.length_append, List.length_singleton] at hk
          by_cases hkl : k ≤ stepsC.length
          · rw [List.take_append_of_le_length hkl]
            have hend_mem := walkEnd_take_mem stepsC startId k
            have hend_ne : walkEnd startId (stepsC.take k) ≠ e.«to» := by
              intro hcontr
              rw [hcontr] at hend_mem
              exact hnb_notin hend_mem
            obtain ⟨q, hq, hqle⟩ := hprefC k hkl
            refine ⟨q, ?_, hqle⟩
            simp only [lookup_mapSet, if_neg hend_ne]
            exact hq
          · have hkeq : k = stepsC.length + 1 := by omega
            subst hkeq
            have htk : (stepsC ++ [(e.«to», e.distance)]).take (stepsC.length + 1) =
                stepsC ++ [(e.«to», e.distance)] := by
              apply List.take_of_length_le
              rw [List.length_append, List.length_singleton]
            rw [htk, walkEnd_append_one, walkWeight_append_one, hwtC]
            exact ⟨rc + e.distance, by simp [lookup_mapSet], le_rfl⟩
      · rw [if_neg hx] at hnr
        obtain ⟨stepsN, hwN, hendN, hwtN, hndN, hprefN⟩ := hcert n r hnr
        refine ⟨stepsN, hwN, hendN, hwtN, hndN, ?_⟩
        intro k hk
        obtain ⟨q, hq, hqle⟩ := hprefN k hk
        by_cases hend : walkEnd startId (stepsN.take k) = e.«to»
        · rw [hend, hgn] at hq
          cases hq
          refine ⟨rc + e.distance, ?_, ?_⟩
          · simp [lookup_mapSet, hend]
          · rw [WithTop.coe_lt_coe] at hlt
            linarith
        · refine ⟨q, ?_, hqle⟩
          simp only [lookup_mapSet, if_neg hend]
          exact hq
    · intro n r hnr
      simp only [lookup_mapSet] at hnr
      by_cases hx : n = e.«to»
      · rw [if_pos hx] at hnr
        injection hnr with hr
        have hr' : rc + e.distance = r := WithTop.coe_eq_coe.mp hr
        refine ⟨nd, by rw [hx]; exact hnd, ?_⟩
        simp only [lookup_mapSet, if_pos hx]
        rw [hnd]
        simp only [Option.getD_some]
        rw [hr']
      · rw [if_neg hx] at hnr
        obtain ⟨nd', hnd', hf⟩ := hfl n r hnr
        refine ⟨nd', hnd', ?_⟩
        simp only [lookup_mapSet, if_neg hx]
        exact hf
    · intro n c' hnc
      simp only [lookup_mapSet] at hnc
      by_cases hx : n = e.«to»
      · rw [if_pos hx] at hnc
        cases hnc
        refine ⟨e.distance, rc, rc + e.distance, by rw [hx]; exact hlink, ?_, ?_, le_rfl⟩
        · simp only [lookup_mapSet, if_neg hc_ne]
          exact hgc
        · simp only [lookup_mapSet, if_pos hx]
      · rw [if_neg hx] at hnc
        obtain ⟨d0, rc0, rn0, hl0, hgc0, hgn0, hle0⟩ := hcfe n c' hnc
        by_cases hcx : c' = e.«to»
        · rw [hcx, hgn] at hgc0
          cases hgc0
          refine ⟨d0, rc + e.distance, rn0, hl0, ?_, ?_, ?_⟩
          · simp only [lookup_mapSet, if_pos hcx]
          · simp only [lookup_mapSet, if_neg hx]
            exact hgn0
          · rw [WithTop.coe_lt_coe] at hlt
            linarith
        · refine ⟨d0, rc0, rn0, hl0, ?_, ?_, hle0⟩
          · simp only [lookup_mapSet, if_neg hcx]
            exact hgc0
          · simp only [lookup_mapSet, if_neg hx]
            exact hgn0
    · have chain_bound : ∀ z,
          Relation.ReflTransGen (fun u v => st.cameFrom.lookup u = some v) c z →
          ∃ rz : ℝ, st.gScore.lookup z = some ((rz : ℝ) : WithTop ℝ) ∧ rz ≤ rc := by
        intro z hz
        induction hz with
        | refl => exact ⟨rc, hgc, le_rfl⟩
        | tail hz hstep ih =>
          obtain ⟨rb, hgb, hrb⟩ := ih
          obtain ⟨d0, rc0, rn0, hl0, hgc0, hgn0, hle0⟩ := hcfe _ _ hstep
          rw [hgb] at hgn0
          cases hgn0
          have hd0 : 0 ≤ d0 := by
            obtain ⟨l, hl, hm⟩ := hl0
            exact hnn _ l hl _ hm
          exact ⟨rc0, hgc0, by linarith⟩
      have chain_ne : ∀ z,
          Relation.ReflTransGen (fun u v => st.cameFrom.lookup u = some v) c z →
          z ≠ e.«to» := by
        intro z hz hcontr
        obtain ⟨rz, hgz, hrz⟩ := chain_bound z hz
        rw [hcontr, hgn] at hgz
        cases hgz
        rw [WithTop.coe_lt_coe] at hlt
        linarith
      have accA : ∀ z, Acc (fun a b => st.cameFrom.lookup b = some a) z →
          Relation.ReflTransGen (fun u v => st.cameFrom.lookup u = some v) c z →
          Acc (fun a b => (mapSet st.cameFrom e.«to» c).lookup b = some a) z := by
        intro z hz
        induction hz with
        | intro z hz ih =>
          intro hrtg
          apply Acc.intro
          intro a ha
          have hz_ne : z ≠ e.«to» := chain_ne z hrtg
          rw [lookup_mapSet, if_neg hz_ne] at ha
          exact ih a ha (hrtg.tail ha)
      have accC : Acc (fun a b => (mapSet st.cameFrom e.«to» c).lookup b = some a) c :=
        accA c (hacc c) Relation.ReflTransGen.refl
      have accNb : Acc (fun a b => (mapSet st.cameFrom e.«to» c).lookup b = some a)
          e.«to» := by
        apply Acc.intro
        intro a ha
        rw [lookup_mapSet, if_pos rfl] at ha
        cases ha
        exact accC
      intro m
      have hm := hacc m
      induction hm with
      | intro m _ ih =>
        by_cases hmx : m = e.«to»
        · rw [hmx]
          exact accNb
        · apply Acc.intro
          intro a ha
          rw [lookup_mapSet, if_neg hmx] at ha
          exact ih a ha
    · intro n r hne hnr
      simp only [lookup_mapSet] at hnr ⊢
      by_cases hx : n = e.«to»
      · rw [if_pos hx]
        rfl
      · rw [if_neg hx] at hnr
        rw [if_neg hx]
        exact hcft n r hne hnr
    · unfold StartZero
      dsimp only
      rw [lookup_mapSet, if_neg (Ne.symm hne_start)]
      exact hsz

/-! ## Fold-level relaxation lemmas and the termination measure -/

/-- `walkEnd` composes over list append. -/
theorem walkEnd_append (a : ℕ) (s t : List (ℕ × ℝ)) :
    walkEnd a (s ++ t) = walkEnd (walkEnd a s) t := by
  induction s generalizing a with
  | nil => rfl
  | cons st rest ih =>
    rw [List.cons_append, walkEnd_cons, walkEnd_cons]
    exact ih st.1

/-- `walkWeight` adds over list append. -/
theorem walkWeight_append (s t : List (ℕ × ℝ)) :
    walkWeight (s ++ t) = walkWeight s + walkWeight t := by
  simp [walkWeight]

/-- The Euclid lower-bound hypothesis implies nonnegative link distances. -/
theorem nonnegLinks_of_euclid (P : AStarPathfinder) (h : EuclidLowerBound P) :
    NonnegLinks P := by
  intro u l hl e he
  obtain ⟨nu, nv, _, _, hd, _⟩ := h u e.«to» e.distance ⟨l, hl, he⟩
  exact hd

/-- With nonnegative link distances, path weights are nonnegative. -/
theorem linkPath_weight_nonneg (P : AStarPathfinder) (hnn : NonnegLinks P)
    (a b : ℕ) (q : List ℕ) (w : ℝ) (h : LinkPath P a b q w) : 0 ≤ w := by
  obtain ⟨steps, hw, _, _, hwt⟩ := walkSteps_of_linkPath P a b q w h
  rw [← hwt]
  exact walkWeight_nonneg P hnn steps a hw

/-- Adding to the open set grows it by at most one element. -/
theorem length_setAdd_le (s : List ℕ) (x : ℕ) : (setAdd s x).length ≤ s.length + 1 := by
  unfold setAdd
  split
  · exact Nat.le_succ _
  · simp

/-- One relaxation of a stored link never increases the termination
measure: an actual update strictly lowers the total rank, which dominates
the one node the update may add to the open set. -/
theorem relaxNeighbor_measure_le (P : AStarPathfinder) (startId : ℕ) (gn : Node) (c : ℕ)
    (st : SearchState) (e : Link)
    (hnn : NonnegLinks P) (hlink : HasLink P c e.«to» e.distance)
    (hinv : AStarInvCore P startId gn st) :
    searchMeasure P (relaxNeighbor P gn c st e) ≤ searchMeasure P st := by
  rcases relaxNeighbor_cases P gn c st e with h | ⟨rc, gnb, hgc, hgn, hlt, h⟩
  · rw [h]
  · have hpost := relaxNeighbor_invCore P startId gn c st e hnn hlink hinv
    obtain ⟨hal', _, _, hcert', _⟩ := hpost
    obtain ⟨hal, _⟩ := hinv
    have hg' : (relaxNeighbor P gn c st e).gScore.lookup e.«to» =
        some ((rc + e.distance : ℝ) : WithTop ℝ) := by
      rw [h]
      show (mapSet st.gScore e.«to» ((rc + e.distance : ℝ) : WithTop ℝ)).lookup e.«to» = _
      simp [lookup_mapSet]
    obtain ⟨steps, hwS, _, hwtS, hndS, _⟩ := hcert' (e.«to») (rc + e.distance) hg'
    have hmemW : (rc + e.distance) ∈ weightCandidates P := by
      rw [← hwtS]
      exact nodupWalk_weight_mem P steps startId hwS hndS
    have hstrict : gRank P (relaxNeighbor P gn c st e) e.«to» < gRank P st e.«to» := by
      apply gRank_strict P _ st e.«to» (rc + e.distance) hg' hmemW
      rw [hgn]
      simpa using hlt
    have hmono := relaxNeighbor_g_mono P gn c st e
    have hranks : ∀ x, gRank P (relaxNeighbor P gn c st e) x ≤ gRank P st x := fun x =>
      gRank_mono P _ st x (hmono.1 x) (fun gx' hx => hmono.2 x gx' hx)
    have hkey : e.«to» ∈ (P.nodes.map Prod.fst).toFinset := by
      rw [List.mem_toFinset, ← lookup_isSome_iff_mem]
      exact ((hal e.«to»).1).mp (by rw [hgn]; rfl)
    have hsum : gSum P (relaxNeighbor P gn c st e) < gSum P st := by
      unfold gSum
      exact Finset.sum_lt_sum (fun i _ => hranks i) ⟨e.«to», hkey, hstrict⟩
    have hopen : (relaxNeighbor P gn c st e).openSet.length ≤ st.openSet.length + 1 := by
      rw [h]
      exact length_setAdd_le st.openSet e.«to»
    have h1 : gSum P (relaxNeighbor P gn c st e) + 1 ≤ gSum P st := hsum
    have h2 : (gSum P (relaxNeighbor P gn c st e) + 1) * (P.nodes.length + 1) ≤
        gSum P st * (P.nodes.length + 1) := Nat.mul_le_mul_right _ h1
    unfold searchMeasure
    calc gSum P (relaxNeighbor P gn c st e) * (P.nodes.length + 1) +
          (relaxNeighbor P gn c st e).openSet.length
        ≤ gSum P (relaxNeighbor P gn c st e) * (P.nodes.length + 1) +
          (st.openSet.length + 1) := Nat.add_le_add_left hopen _
      _ = gSum P (relaxNeighbor P gn c st e) * (P.nodes.length + 1) + 1 +
          st.openSet.length := by ring
      _ ≤ gSum P (relaxNeighbor P gn c st e) * (P.nodes.length + 1) +
          (P.nodes.length + 1) + st.openSet.length := by
            have hK : (1 : ℕ) ≤ P.nodes.length + 1 := Nat.succ_le_succ (Nat.zero_le _)
            exact Nat.add_le_add_right (Nat.add_le_add_left hK _) _
      _ = (gSum P (relaxNeighbor P gn c st e) + 1) * (P.nodes.length + 1) +
          st.openSet.length := by ring
      _ ≤ gSum P st * (P.nodes.length + 1) + st.openSet.length :=
          Nat.add_le_add_right h2 _

/-- Folding relaxation over a list of stored links preserves the core
invariant and never increases the measure. -/
theorem foldRelax_invCore_measure (P : AStarPathfinder) (startId : ℕ) (gn : Node)
    (c : ℕ) :
    ∀ (l : List Link) (st : SearchState), NonnegLinks P →
      (∀ e ∈ l, HasLink P c e.«to» e.distance) → AStarInvCore P startId gn st →
      AStarInvCore P startId gn (l.foldl (relaxNeighbor P gn c) st) ∧
      searchMeasure P (l.foldl (relaxNeighbor P gn c) st) ≤ searchMeasure P st := by
  intro l
  induction l with
  | nil => intro st _ _ hinv; exact ⟨hinv, le_rfl⟩
  | cons e t ih =>
    intro st hnn hl hinv
    have he := hl e (List.mem_cons_self e t)
    have h1 := relaxNeighbor_invCore P startId gn c st e hnn he hinv
    have h2 := relaxNeighbor_measure_le P startId gn c st e hnn he hinv
    have h3 := ih (relaxNeighbor P gn c st e) hnn
      (fun x hx => hl x (List.mem_cons_of_mem _ hx)) h1
    rw [List.foldl_cons]
    exact ⟨h3.1, le_trans h3.2 h2⟩

/-- Removing a node from the open set preserves the core invariant. -/
theorem invCore_eraseOpen (P : AStarPathfinder) (startId : ℕ) (gn : Node)
    (st : SearchState) (c : ℕ) (hinv : AStarInvCore P startId gn st) :
    AStarInvCore P startId gn { st with openSet := st.openSet.erase c } := by
  obtain ⟨hal, hnodup, hof, hcert, hfl, hcfe, hacc, hcft, hsz⟩ := hinv
  refine ⟨hal, List.Nodup.erase c hnodup, ?_, hcert, hfl, hcfe, hacc, hcft, hsz⟩
  intro n hn
  exact hof n (List.mem_of_mem_erase hn)

/-- `expandCurrent` on a present node, unfolded. -/
theorem expandCurrent_some (P : AStarPathfinder) (gn : Node) (st : SearchState)
    (c : ℕ) :
    expandCurrent P gn st (some c) =
      ((P.links.lookup c).getD []).foldl (relaxNeighbor P gn c)
        { st with openSet := st.openSet.erase c } := rfl

/-- Expanding an open node preserves the core invariant and strictly
decreases the termination measure. -/
theorem expandCurrent_invCore_measure (P : AStarPathfinder) (startId : ℕ) (gn : Node)
    (st : SearchState) (c : ℕ) (hnn : NonnegLinks P) (hc : c ∈ st.openSet)
    (hinv : AStarInvCore P startId gn st) :
    AStarInvCore P startId gn (expandCurrent P gn st (some c)) ∧
    searchMeasure P (expandCurrent P gn st (some c)) < searchMeasure P st := by
  have hinv1 := invCore_eraseOpen P startId gn st c hinv
  have hmeas1 : searchMeasure P { st with openSet := st.openSet.erase c } <
      searchMeasure P st := by
    show gSum P st * (P.nodes.length + 1) + (st.openSet.erase c).length <
      gSum P st * (P.nodes.length + 1) + st.openSet.length
    apply Nat.add_lt_add_left
    rw [List.length_erase_of_mem hc]
    have := List.length_pos_of_mem hc
    omega
  rw [expandCurrent_some]
  cases hl : P.links.lookup c with
  | none =>
    exact ⟨hinv1, hmeas1⟩
  | some l =>
    have hall : ∀ e ∈ l, HasLink P c e.«to» e.distance := fun e he => ⟨l, hl, he⟩
    have hres := foldRelax_invCore_measure P startId gn c l _ hnn hall hinv1
    exact ⟨hres.1, lt_of_le_of_lt hres.2 hmeas1⟩

/-! ## Loop equations and the initial invariant -/

/-- `walkEnd` on the empty step list. -/
theorem walkEnd_nil (a : ℕ) : walkEnd a [] = a := rfl

/-- `walkWeight` on the empty step list. -/
theorem walkWeight_nil : walkWeight [] = 0 := rfl

/-- `walkWeight` on a cons cell. -/
theorem walkWeight_cons (sp : ℕ × ℝ) (rest : List (ℕ × ℝ)) :
    walkWeight (sp :: rest) = sp.2 + walkWeight rest := by
  simp [walkWeight]

/-- `loopIter`, unfolded to its two tests. -/
theorem loopIter_eq (P : AStarPathfinder) (goalId : ℕ) (gn : Node) (st : SearchState) :
    loopIter P goalId gn st =
      if st.openSet = [] then Sum.inl (some [])
      else if (selectCurrent st.fScore st.openSet).1 = some goalId then
        Sum.inl (reconstructPathRun st.cameFrom goalId)
      else Sum.inr (expandCurrent P gn st (selectCurrent st.fScore st.openSet).1) := rfl

/-- `findPathLoop` on a successor fuel value. -/
theorem findPathLoop_succ (P : AStarPathfinder) (goalId : ℕ) (gn : Node) (fuel : ℕ)
    (st : SearchState) :
    findPathLoop P goalId gn (fuel + 1) st =
      match loopIter P goalId gn st with
      | Sum.inl r => r
      | Sum.inr st2 => findPathLoop P goalId gn fuel st2 := rfl

/-- Under the core invariant a nonempty open set always yields a selected
current node: every open member carries a finite `fScore`. -/
theorem selectCurrent_isSome_of_inv (P : AStarPathfinder) (startId : ℕ) (gn : Node)
    (st : SearchState) (hinv : AStarInvCore P startId gn st) (ho : st.openSet ≠ []) :
    ∃ c fc, selectCurrent st.fScore st.openSet = (some c, fc) ∧ c ∈ st.openSet ∧
      st.fScore.lookup c = some fc ∧
      ∀ m ∈ st.openSet, ∀ fm, st.fScore.lookup m = some fm → fc ≤ fm := by
  obtain ⟨hal, _, hof, _, hfl, _⟩ := hinv
  apply selectCurrent_spec _ _ ho
  intro n hn
  obtain ⟨r, hr⟩ := hof n hn
  obtain ⟨nd, _, hf⟩ := hfl n r hr
  exact ⟨r + heuristic nd gn, hf⟩

/-- The initial state satisfies the core loop invariant. -/
theorem initState_invCore (P : AStarPathfinder) (startId : ℕ) (sn gn : Node)
    (hs : P.nodes.lookup startId = some sn) :
    AStarInvCore P startId gn (initState P startId sn gn) := by
  have hgx := initState_gScore P startId sn gn
  have hfx := initState_fScore P startId sn gn
  have hfin : ∀ (n : ℕ) (r : ℝ),
      (initState P startId sn gn).gScore.lookup n = some ((r : ℝ) : WithTop ℝ) →
      n = startId ∧ r = 0 := by
    intro n r hn
    rw [hgx n] at hn
    by_cases h1 : n = startId
    · rw [if_pos h1] at hn
      injection hn with hn2
      exact ⟨h1, (WithTop.coe_eq_coe.mp hn2).symm⟩
    · rw [if_neg h1] at hn
      by_cases h2 : n ∈ P.nodes.map Prod.fst
      · rw [if_pos h2] at hn
        injection hn with hn2
        exact absurd hn2 (by simp)
      · rw [if_neg h2] at hn
        cases hn
  have hmemiff : ∀ x : ℕ, (x ∈ P.nodes.map Prod.fst) ↔ (P.nodes.lookup x).isSome := by
    intro x
    rw [lookup_isSome_iff_mem]
  refine ⟨?_, ?_, ?_, ?_, ?_, ?_, ?_, ?_, ?_⟩
  · intro x
    constructor
    · rw [hgx x]
      by_cases h1 : x = startId
      · subst h1
        simp [hs]
      · rw [if_neg h1]
        by_cases h2 : x ∈ P.nodes.map Prod.fst
        · rw [if_pos h2]
          exact iff_of_true rfl ((hmemiff x).mp h2)
        · rw [if_neg h2]
          exact iff_of_false (by simp) (fun hc => h2 ((hmemiff x).mpr hc))
    · rw [hfx x]
      by_cases h1 : x = startId
      · subst h1
        simp [hs]
      · rw [if_neg h1]
        by_cases h2 : x ∈ P.nodes.map Prod.fst
        · rw [if_pos h2]
          exact iff_of_true rfl ((hmemiff x).mp h2)
        · rw [if_neg h2]
          exact iff_of_false (by simp) (fun hc => h2 ((hmemiff x).mpr hc))
  · exact List.nodup_singleton startId
  · intro n hn
    have hn2 : n = startId := List.mem_singleton.mp hn
    subst hn2
    exact ⟨0, by rw [hgx n, if_pos rfl]⟩
  · intro n r hn
    obtain ⟨h1, h2⟩ := hfin n r hn
    subst h1
    subst h2
    refine ⟨[], trivial, rfl, walkWeight_nil, ?_, ?_⟩
    · exact List.nodup_singleton n
    · intro k hk
      have hk0 : k = 0 := Nat.le_zero.mp hk
      subst hk0
      refine ⟨0, ?_, le_rfl⟩
      have he : walkEnd n (List.take 0 ([] : List (ℕ × ℝ))) = n := rfl
      rw [hgx, he, if_pos rfl]
  · intro n r hn
    obtain ⟨h1, h2⟩ := hfin n r hn
    subst h1
    subst h2
    refine ⟨sn, hs, ?_⟩
    rw [hfx, if_pos rfl, zero_add]
  · intro n c h
    have h2 : ([] : List (ℕ × ℕ)).lookup n = some c := h
    simp [List.lookup] at h2
  · intro n
    constructor
    intro y hy
    have hy2 : ([] : List (ℕ × ℕ)).lookup n = some y := hy
    simp [List.lookup] at hy2
  · intro n r hne hnr
    exact absurd (hfin n r hnr).1 hne
  · unfold StartZero
    rw [hgx, if_pos rfl]

/-! ## Reconstruction: fuel monotonicity and termination -/

/-- A sufficient reconstruction bound stays sufficient, with the same
value, for any larger bound. -/
theorem reconstructPath_mono (cf : List (ℕ × ℕ)) :
    ∀ (f : ℕ) (cur : ℕ), (reconstructPath cf f cur).isSome →
      ∀ f', f ≤ f' → reconstructPath cf f' cur = reconstructPath cf f cur := by
  intro f
  induction f with
  | zero =>
    intro cur h
    exact absurd h (by simp [reconstructPath])
  | succ f ih =>
    intro cur h f' hf'
    obtain ⟨f'', rfl⟩ : ∃ f'', f' = f'' + 1 := ⟨f' - 1, by omega⟩
    cases hl : cf.lookup cur with
    | none => simp [reconstructPath, hl]
    | some prev =>
      simp only [reconstructPath, hl] at h ⊢
      cases hr : reconstructPath cf f prev with
      | none => rw [hr] at h; simp at h
      | some p =>
        have hsome : (reconstructPath cf f prev).isSome := by rw [hr]; rfl
        rw [ih prev hsome f'' (by omega), hr]

/-- A well-founded pointer chain admits a sufficient reconstruction
bound. -/
theorem reconstructPath_exists (cf : List (ℕ × ℕ)) (cur : ℕ)
    (hacc : Acc (fun a b => cf.lookup b = some a) cur) :
    ∃ f, (reconstructPath cf f cur).isSome := by
  induction hacc with
  | intro cur hac ih =>
    cases hl : cf.lookup cur with
    | none => exact ⟨1, by simp [reconstructPath, hl]⟩
    | some prev =>
      obtain ⟨f, hf⟩ := ih prev hl
      refine ⟨f + 1, ?_⟩
      simp only [reconstructPath, hl]
      cases hr : reconstructPath cf f prev with
      | none => rw [hr] at hf; simp at hf
      | some p => simp

/-- `reconstructPathRun` succeeds on a well-founded pointer chain. -/
theorem reconstructPathRun_isSome (cf : List (ℕ × ℕ)) (cur : ℕ)
    (hacc : Acc (fun a b => cf.lookup b = some a) cur) :
    (reconstructPathRun cf cur).isSome := by
  have hex := reconstructPath_exists cf cur hacc
  unfold reconstructPathRun
  rw [dif_pos hex]
  exact Nat.find_spec hex

/-- `reconstructPathRun` at a chain root. -/
theorem reconstructPathRun_base (cf : List (ℕ × ℕ)) (cur : ℕ)
    (hl : cf.lookup cur = none) : reconstructPathRun cf cur = some [cur] := by
  have hex : ∃ f, (reconstructPath cf f cur).isSome :=
    ⟨1, by simp [reconstructPath, hl]⟩
  unfold reconstructPathRun
  rw [dif_pos hex]
  obtain ⟨fc, hfc⟩ : ∃ fc, Nat.find hex = fc + 1 := by
    cases hfind : Nat.find hex with
    | zero =>
      have hspec := Nat.find_spec hex
      rw [hfind] at hspec
      simp [reconstructPath] at hspec
    | succ n => exact ⟨n, rfl⟩
  rw [hfc]
  simp [reconstructPath, hl]

/-- `reconstructPathRun` follows one pointer and appends the current
node. -/
theorem reconstructPathRun_step (cf : List (ℕ × ℕ)) (cur prev : ℕ)
    (hl : cf.lookup cur = some prev)
    (haccp : Acc (fun a b => cf.lookup b = some a) prev) :
    reconstructPathRun cf cur =
      (reconstructPathRun cf prev).map (fun p => p ++ [cur]) := by
  have hexp : ∃ f, (reconstructPath cf f prev).isSome :=
    reconstructPath_exists cf prev haccp
  have hexc : ∃ f, (reconstructPath cf f cur).isSome := by
    obtain ⟨f, hf⟩ := hexp
    refine ⟨f + 1, ?_⟩
    simp only [reconstructPath, hl]
    cases hr : reconstructPath cf f prev with
    | none => rw [hr] at hf; simp at hf
    | some p => simp
  unfold reconstructPathRun
  rw [dif_pos hexc, dif_pos hexp]
  have hc := Nat.find_spec hexc
  obtain ⟨fc, hfc⟩ : ∃ fc, Nat.find hexc = fc + 1 := by
    cases hfind : Nat.find hexc with
    | zero =>
      rw [hfind] at hc
      simp [reconstructPath] at hc
    | succ n => exact ⟨n, rfl⟩
  rw [hfc] at hc ⊢
  simp only [reconstructPath, hl] at hc ⊢
  cases hr : reconstructPath cf fc prev with
  | none => rw [hr] at hc; simp at hc
  | some p =>
    have hsome : (reconstructPath cf fc prev).isSome := by rw [hr]; rfl
    have e1 : reconstructPath cf (max fc (Nat.find hexp)) prev =
        reconstructPath cf fc prev :=
      reconstructPath_mono cf fc prev hsome _ (le_max_left _ _)
    have e2 : reconstructPath cf (max fc (Nat.find hexp)) prev =
        reconstructPath cf (Nat.find hexp) prev :=
      reconstructPath_mono cf (Nat.find hexp) prev (Nat.find_spec hexp) _
        (le_max_right _ _)
    rw [← hr, e1.symm.trans e2]

/-! ## Termination of the search loop -/

/-- Under the core invariant the loop always admits a sufficient fuel
bound: the embedded `while` loop of `findPath` terminates. -/
theorem loop_terminates (P : AStarPathfinder) (startId goalId : ℕ) (gn : Node)
    (hnn : NonnegLinks P) :
    ∀ st, AStarInvCore P startId gn st →
      ∃ fuel, (findPathLoop P goalId gn fuel st).isSome := by
  have H : ∀ m st, searchMeasure P st = m → AStarInvCore P startId gn st →
      ∃ fuel, (findPathLoop P goalId gn fuel st).isSome := by
    intro m
    induction m using Nat.strong_induction_on with
    | _ m ih =>
      intro st hm hinv
      by_cases hop : st.openSet = []
      · refine ⟨1, ?_⟩
        rw [findPathLoop_succ, loopIter_eq, if_pos hop]
        rfl
      · by_cases hcg : (selectCurrent st.fScore st.openSet).1 = some goalId
        · refine ⟨1, ?_⟩
          rw [findPathLoop_succ, loopIter_eq, if_neg hop, if_pos hcg]
          show (reconstructPathRun st.cameFrom goalId).isSome
          obtain ⟨_, _, _, _, _, _, hacc, _, _⟩ := hinv
          exact reconstructPathRun_isSome st.cameFrom goalId (hacc goalId)
        · obtain ⟨c, fc, hsel, hcmem, _, _⟩ :=
            selectCurrent_isSome_of_inv P startId gn st hinv hop
          have hexp := expandCurrent_invCore_measure P startId gn st c hnn hcmem hinv
          obtain ⟨fuel, hfuel⟩ :=
            ih (searchMeasure P (expandCurrent P gn st (some c)))
              (by rw [← hm]; exact hexp.2)
              (expandCurrent P gn st (some c)) rfl hexp.1
          refine ⟨fuel + 1, ?_⟩
          rw [findPathLoop_succ, loopIter_eq, if_neg hop, if_neg hcg, hsel]
          exact hfuel
  intro st hinv
  exact H (searchMeasure P st) st rfl hinv

/-- On an unreachable query the loop can only return the empty sequence:
the goal is never selected, because a finite goal score would certify a
connecting walk. -/
theorem findPathLoop_value_unreachable (P : AStarPathfinder) (startId goalId : ℕ)
    (gn : Node) (hunreach : ¬ ∃ q w, LinkPath P startId goalId q w) :
    ∀ (fuel : ℕ) (st : SearchState) (r : List ℕ), AStarInvCore P startId gn st →
      NonnegLinks P →
      findPathLoop P goalId gn fuel st = some r → r = [] := by
  intro fuel
  induction fuel with
  | zero =>
    intro st r _ _ h
    have h2 : (none : Option (List ℕ)) = some r := h
    cases h2
  | succ fuel ih =>
    intro st r hinv hnn h
    rw [findPathLoop_succ, loopIter_eq] at h
    by_cases hop : st.openSet = []
    · rw [if_pos hop] at h
      have h2 : (some [] : Option (List ℕ)) = some r := h
      cases h2
      rfl
    · rw [if_neg hop] at h
      by_cases hcg : (selectCurrent st.fScore st.openSet).1 = some goalId
      · exfalso
        have hgmem : goalId ∈ st.openSet := selectCurrent_mem _ _ _ hcg
        obtain ⟨_, _, hof, hcert, _⟩ := hinv
        obtain ⟨rg, hrg⟩ := hof goalId hgmem
        obtain ⟨steps, hw, hend, _, _, _⟩ := hcert goalId rg hrg
        refine hunreach ⟨walkNodes startId steps, walkWeight steps, ?_⟩
        have hlp := linkPath_of_walkSteps P steps startId hw
        rw [hend] at hlp
        exact hlp
      · rw [if_neg hcg] at h
        obtain ⟨c, fc, hsel, hcmem, _, _⟩ :=
          selectCurrent_isSome_of_inv P startId gn st hinv hop
        rw [hsel] at h
        have h2 : findPathLoop P goalId gn fuel (expandCurrent P gn st (some c)) =
            some r := h
        exact ih (expandCurrent P gn st (some c)) r
          (expandCurrent_invCore_measure P startId gn st c hnn hcmem hinv).1 hnn h2

/-- Claim C2: on every graph with nonnegative link distances and both ids
present in the node map, if the goal is not reachable from the start via
stored links then `findPath` terminates (the open set empties, and path
reconstruction never loops) and returns the empty sequence. -/
theorem claim_C2_disconnected_empty (P : AStarPathfinder) (a b : ℕ)
    (hnn : NonnegLinks P) (ha : (P.nodes.lookup a).isSome)
    (hb : (P.nodes.lookup b).isSome)
    (hunreach : ¬ ∃ q w, LinkPath P a b q w) :
    findPath P a b = some [] := by
  obtain ⟨sn, hsn⟩ := Option.isSome_iff_exists.mp ha
  obtain ⟨gnode, hgn⟩ := Option.isSome_iff_exists.mp hb
  have hab : a ≠ b := by
    intro h
    exact hunreach ⟨[a], 0, by rw [← h]; exact LinkPath.nil a⟩
  have hinv0 := initState_invCore P a sn gnode hsn
  have hex := loop_terminates P a b gnode hnn (initState P a sn gnode) hinv0
  unfold findPath
  rw [hsn, hgn]
  show (if a = b then some [a] else _) = some []
  rw [if_neg hab, dif_pos hex]
  obtain ⟨r, hr⟩ := Option.isSome_iff_exists.mp (Nat.find_spec hex)
  have hr0 := findPathLoop_value_unreachable P a b gnode hunreach _ _ r hinv0 hnn hr
  rw [hr, hr0]

/-- Witness for claim C2: a two-node graph with no links. -/
theorem claim_C2_disconnected_empty_witness :
    findPath ⟨[(1, ⟨1, 0, 0⟩), (2, ⟨2, 3, 0⟩)], []⟩ 1 2 = some [] :=
  claim_C2_disconnected_empty ⟨[(1, ⟨1, 0, 0⟩), (2, ⟨2, 3, 0⟩)], []⟩ 1 2
    (by intro u l hl; simp [List.lookup] at hl)
    rfl rfl
    (by
      rintro ⟨q, w, hp⟩
      cases hp with
      | cons a' b' c' p' d' w' hl hp' =>
        obtain ⟨l, hl', _⟩ := hl
        simp [List.lookup] at hl')

/-! ## Fold-level facts for the optimality invariants -/

/-- Score keys survive a relaxation fold, and scores only decrease. -/
theorem foldRelax_g_mono (P : AStarPathfinder) (gn : Node) (c : ℕ) :
    ∀ (l : List Link) (st : SearchState),
      (∀ x, (((l.foldl (relaxNeighbor P gn c) st).gScore.lookup x).isSome ↔
        (st.gScore.lookup x).isSome)) ∧
      (∀ x gx', (l.foldl (relaxNeighbor P gn c) st).gScore.lookup x = some gx' →
        ∃ gx, st.gScore.lookup x = some gx ∧ gx' ≤ gx) := by
  intro l
  induction l with
  | nil =>
    intro st
    exact ⟨fun x => Iff.rfl, fun x gx' hx => ⟨gx', hx, le_rfl⟩⟩
  | cons e t ih =>
    intro st
    rw [List.foldl_cons]
    have h1 := relaxNeighbor_g_mono P gn c st e
    have h2 := ih (relaxNeighbor P gn c st e)
    refine ⟨fun x => (h2.1 x).trans (h1.1 x), ?_⟩
    intro x gx' hx
    obtain ⟨gm, hgm, hle1⟩ := h2.2 x gx' hx
    obtain ⟨gx, hgx, hle2⟩ := h1.2 x gm hgm
    exact ⟨gx, hgx, le_trans hle1 hle2⟩

/-- The open set only grows during a relaxation fold. -/
theorem foldRelax_open_mono (P : AStarPathfinder) (gn : Node) (c : ℕ) :
    ∀ (l : List Link) (st : SearchState) (x : ℕ),
      x ∈ st.openSet → x ∈ (l.foldl (relaxNeighbor P gn c) st).openSet := by
  intro l
  induction l with
  | nil => intro st x hx; exact hx
  | cons e t ih =>
    intro st x hx
    rw [List.foldl_cons]
    exact ih _ x ((relaxNeighbor_open P gn c st e).1 x hx)

/-- A node whose score a relaxation fold changes ends up in the open
set. -/
theorem foldRelax_unchanged_or_open (P : AStarPathfinder) (gn : Node) (c : ℕ) :
    ∀ (l : List Link) (st : SearchState) (x : ℕ),
      (l.foldl (relaxNeighbor P gn c) st).gScore.lookup x = st.gScore.lookup x ∨
      x ∈ (l.foldl (relaxNeighbor P gn c) st).openSet := by
  intro l
  induction l with
  | nil => intro st x; exact Or.inl rfl
  | cons e t ih =>
    intro st x
    rw [List.foldl_cons]
    rcases relaxNeighbor_cases P gn c st e with h | ⟨rc, gnb, hgc, hgn, hlt, h⟩
    · rw [h]
      exact ih st x
    · by_cases hx : x = e.«to»
      · right
        subst hx
        apply foldRelax_open_mono P gn c t (relaxNeighbor P gn c st e) e.«to»
        rw [h]
        show e.«to» ∈ setAdd st.openSet e.«to»
        rw [mem_setAdd]
        exact Or.inl rfl
      · rcases ih (relaxNeighbor P gn c st e) x with h2 | h2
        · left
          rw [h2, h]
          show (mapSet st.gScore e.«to» _).lookup x = st.gScore.lookup x
          rw [lookup_mapSet, if_neg hx]
        · right
          exact h2

/-- The expanded node's score survives a relaxation fold over links of
nonnegative distance. -/
theorem foldRelax_gc_fixed (P : AStarPathfinder) (gn : Node) (c : ℕ) :
    ∀ (l : List Link) (st : SearchState) (rc : ℝ),
      (∀ e ∈ l, 0 ≤ e.distance) →
      st.gScore.lookup c = some ((rc : ℝ) : WithTop ℝ) →
      (l.foldl (relaxNeighbor P gn c) st).gScore.lookup c =
        some ((rc : ℝ) : WithTop ℝ) := by
  intro l
  induction l with
  | nil => intro st rc _ h; exact h
  | cons e t ih =>
    intro st rc hd h
    rw [List.foldl_cons]
    exact ih _ rc (fun x hx => hd x (List.mem_cons_of_mem _ hx))
      (relaxNeighbor_gc_fixed P gn c st e (hd e (List.mem_cons_self e t)) rc h)

/-- After folding relaxation over a link list, every link of the list is
relaxed: its target's score is bounded by the source's score plus the
link distance. -/
theorem foldRelax_all_relaxed (P : AStarPathfinder) (gn : Node) (c : ℕ) :
    ∀ (l : List Link) (st : SearchState) (rc : ℝ),
      (∀ e ∈ l, 0 ≤ e.distance) →
      st.gScore.lookup c = some ((rc : ℝ) : WithTop ℝ) →
      ∀ e ∈ l, ∀ ge, (l.foldl (relaxNeighbor P gn c) st).gScore.lookup e.«to» = some ge →
        ge ≤ ((rc + e.distance : ℝ) : WithTop ℝ) := by
  intro l
  induction l with
  | nil => intro st rc _ _ e he; cases he
  | cons e0 t ih =>
    intro st rc hd hgc e he ge hge
    rw [List.foldl_cons] at hge
    have hgc1 : (relaxNeighbor P gn c st e0).gScore.lookup c =
        some ((rc : ℝ) : WithTop ℝ) :=
      relaxNeighbor_gc_fixed P gn c st e0 (hd e0 (List.mem_cons_self e0 t)) rc hgc
    rcases List.mem_cons.mp he with rfl | he'
    · obtain ⟨g1, hg1, hle1⟩ := (foldRelax_g_mono P gn c t (relaxNeighbor P gn c st e)).2
        e.«to» ge hge
      have hb := relaxNeighbor_edge_relaxed P gn c st e rc hgc g1 hg1
      exact le_trans hle1 hb
    · exact ih (relaxNeighbor P gn c st e0) rc
        (fun x hx => hd x (List.mem_cons_of_mem _ hx)) hgc1 e he' ge hge

/-- Link distances out of any adjacency entry are nonnegative. -/
theorem nonneg_neighbors (P : AStarPathfinder) (hnn : NonnegLinks P) (c : ℕ) :
    ∀ e ∈ (P.links.lookup c).getD [], 0 ≤ e.distance := by
  cases hl : P.links.lookup c with
  | none => intro e he; cases he
  | some l => exact fun e he => hnn c l hl e he

/-- Expanding an open node keeps every settled node fully relaxed. -/
theorem expandCurrent_closedRelaxed (P : AStarPathfinder) (startId : ℕ) (gn : Node)
    (st : SearchState) (c : ℕ) (hnn : NonnegLinks P)
    (hinv : AStarInvCore P startId gn st) (hcr : ClosedRelaxed P st)
    (hc : c ∈ st.openSet) :
    ClosedRelaxed P (expandCurrent P gn st (some c)) := by
  obtain ⟨hal, hnodup, hof, hcert, hfl, hcfe, hacc, hcft, hsz⟩ := hinv
  obtain ⟨rc, hgc⟩ := hof c hc
  rw [expandCurrent_some]
  intro n rn hnopen hgn l hll e he ge hge
  by_cases hnc : n = c
  · subst hnc
    have hgc1 : (((P.links.lookup n).getD []).foldl (relaxNeighbor P gn n)
        { st with openSet := st.openSet.erase n }).gScore.lookup n =
        some ((rc : ℝ) : WithTop ℝ) :=
      foldRelax_gc_fixed P gn n _ _ rc (nonneg_neighbors P hnn n) hgc
    have hrn : rn = rc := by
      rw [hgn] at hgc1
      exact WithTop.coe_eq_coe.mp (Option.some.inj hgc1)
    rw [hrn]
    have he2 : e ∈ (P.links.lookup n).getD [] := by
      rw [hll]
      exact he
    exact foldRelax_all_relaxed P gn n ((P.links.lookup n).getD [])
      { st with openSet := st.openSet.erase n } rc (nonneg_neighbors P hnn n) hgc e he2 ge hge
  · have hng : (((P.links.lookup c).getD []).foldl (relaxNeighbor P gn c)
        { st with openSet := st.openSet.erase c }).gScore.lookup n =
        st.gScore.lookup n := by
      rcases foldRelax_unchanged_or_open P gn c ((P.links.lookup c).getD [])
        { st with openSet := st.openSet.erase c } n with h | h
      · exact h
      · exact absurd h hnopen
    have hnopen0 : n ∉ st.openSet := by
      intro hmem
      apply hnopen
      apply foldRelax_open_mono
      show n ∈ st.openSet.erase c
      rw [List.mem_erase_of_ne hnc]
      exact hmem
    have hgn0 : st.gScore.lookup n = some ((rn : ℝ) : WithTop ℝ) := by
      rw [← hng]
      exact hgn
    obtain ⟨gold, hgold, hle⟩ := (foldRelax_g_mono P gn c ((P.links.lookup c).getD [])
      { st with openSet := st.openSet.erase c }).2 e.«to» ge hge
    exact le_trans hle (hcr n rn hnopen0 hgn0 l hll e he gold hgold)

/-- One relaxation keeps the goal open while finitely scored. -/
theorem relaxNeighbor_goalOpen (P : AStarPathfinder) (gn : Node) (c : ℕ)
    (st : SearchState) (e : Link) (goalId : ℕ) (h : GoalOpen goalId st) :
    GoalOpen goalId (relaxNeighbor P gn c st e) := by
  rcases relaxNeighbor_cases P gn c st e with he | ⟨rc, gnb, hgc, hgn, hlt, he⟩
  · rw [he]
    exact h
  · intro r hr
    rw [he] at hr ⊢
    show goalId ∈ setAdd st.openSet e.«to»
    rw [mem_setAdd]
    have hr2 : (mapSet st.gScore e.«to» ((rc + e.distance : ℝ) : WithTop ℝ)).lookup goalId =
        some ((r : ℝ) : WithTop ℝ) := hr
    rw [lookup_mapSet] at hr2
    by_cases hx : goalId = e.«to»
    · exact Or.inl hx
    · rw [if_neg hx] at hr2
      exact Or.inr (h r hr2)

/-- A relaxation fold keeps the goal open while finitely scored. -/
theorem foldRelax_goalOpen (P : AStarPathfinder) (gn : Node) (c : ℕ) (goalId : ℕ) :
    ∀ (l : List Link) (st : SearchState), GoalOpen goalId st →
      GoalOpen goalId (l.foldl (relaxNeighbor P gn c) st) := by
  intro l
  induction l with
  | nil => intro st h; exact h
  | cons e t ih =>
    intro st h
    rw [List.foldl_cons]
    exact ih _ (relaxNeighbor_goalOpen P gn c st e goalId h)

/-- Expanding a node other than the goal keeps the goal open while
finitely scored. -/
theorem expandCurrent_goalOpen (P : AStarPathfinder) (gn : Node) (st : SearchState)
    (c goalId : ℕ) (hcg : c ≠ goalId) (h : GoalOpen goalId st) :
    GoalOpen goalId (expandCurrent P gn st (some c)) := by
  rw [expandCurrent_some]
  apply foldRelax_goalOpen
  intro r hr
  have hr2 : st.gScore.lookup goalId = some ((r : ℝ) : WithTop ℝ) := hr
  show goalId ∈ st.openSet.erase c
  rw [List.mem_erase_of_ne (fun hgc => hcg hgc.symm)]
  exact h r hr2

/-- Consistency of the Euclidean heuristic along stored walks: the
straight-line distance between two mapped endpoints is at most any walk
weight between them. -/
theorem heuristic_le_walk (P : AStarPathfinder) (helb : EuclidLowerBound P) :
    ∀ (steps : List (ℕ × ℝ)) (a : ℕ) (na : Node), WalkSteps P a steps →
      P.nodes.lookup a = some na → ∀ nb, P.nodes.lookup (walkEnd a steps) = some nb →
      heuristic na nb ≤ walkWeight steps := by
  intro steps
  induction steps with
  | nil =>
    intro a na _ hna nb hnb
    rw [walkEnd_nil, hna] at hnb
    injection hnb with hnb2
    subst hnb2
    rw [walkWeight_nil, heuristic_self]
  | cons sp rest ih =>
    intro a na hw hna nb hnb
    obtain ⟨hl1, hwrest⟩ := hw
    obtain ⟨nu, nv, hnu, hnv, hd0, hdle⟩ := helb a sp.1 sp.2 hl1
    rw [hna] at hnu
    injection hnu with hnu2
    subst hnu2
    rw [walkEnd_cons] at hnb
    have h2 := ih sp.1 nv hwrest hnv nb hnb
    have htri := heuristic_triangle na nv nb
    rw [walkWeight_cons]
    linarith

/-- Walking out of a settled node in a state where every settled node is
fully relaxed: the walk either hits an open node scored at most the
prefix bound, or its end is scored at most the total bound. -/
theorem closedWalk_hook (P : AStarPathfinder) (s : SearchState)
    (helb : EuclidLowerBound P) (hal : ScoresAligned P s) (hcr : ClosedRelaxed P s) :
    ∀ (steps : List (ℕ × ℝ)) (u : ℕ) (gu : ℝ),
      WalkSteps P u steps → s.gScore.lookup u = some ((gu : ℝ) : WithTop ℝ) →
      (∃ k ≤ steps.length, walkEnd u (steps.take k) ∈ s.openSet ∧
        ∃ gy : ℝ, s.gScore.lookup (walkEnd u (steps.take k)) = some ((gy : ℝ) : WithTop ℝ) ∧
          gy ≤ gu + walkWeight (steps.take k)) ∨
      (∃ gt : ℝ, s.gScore.lookup (walkEnd u steps) = some ((gt : ℝ) : WithTop ℝ) ∧
        gt ≤ gu + walkWeight steps) := by
  intro steps
  induction steps with
  | nil =>
    intro u gu _ hgu
    right
    refine ⟨gu, ?_, ?_⟩
    · rw [walkEnd_nil]
      exact hgu
    · rw [walkWeight_nil]
      linarith
  | cons sp rest ih =>
    intro u gu hw hgu
    by_cases hu : u ∈ s.openSet
    · left
      refine ⟨0, Nat.zero_le _, ?_, gu, ?_, ?_⟩
      · have he : walkEnd u ((sp :: rest).take 0) = u := rfl
        rw [he]
        exact hu
      · have he : walkEnd u ((sp :: rest).take 0) = u := rfl
        rw [he]
        exact hgu
      · have he : walkWeight ((sp :: rest).take 0) = 0 := rfl
        rw [he]
        linarith
    · obtain ⟨hl1, hwrest⟩ := hw
      obtain ⟨l, hlu, hmem⟩ := hl1
      obtain ⟨nu, nv, hnu, hnv, _, _⟩ := helb u sp.1 sp.2 ⟨l, hlu, hmem⟩
      have hz : (s.gScore.lookup sp.1).isSome := (hal sp.1).1.mpr (by rw [hnv]; rfl)
      obtain ⟨gz, hgz⟩ := Option.isSome_iff_exists.mp hz
      have hbound := hcr u gu hu hgu l hlu ⟨sp.1, sp.2⟩ hmem gz hgz
      obtain ⟨gz', rfl⟩ : ∃ gz' : ℝ, gz = ((gz' : ℝ) : WithTop ℝ) := by
        cases gz with
        | top => exact absurd hbound (by simp)
        | coe gz' => exact ⟨gz', rfl⟩
      have hgz'le : gz' ≤ gu + sp.2 := WithTop.coe_le_coe.mp hbound
      rcases ih sp.1 gz' hwrest hgz with ⟨k, hk, hopen, gy, hgylook, hgyle⟩ |
        ⟨gt, hgtl, hgtle⟩
      · left
        refine ⟨k + 1, Nat.succ_le_succ hk, ?_, gy, ?_, ?_⟩
        · rw [List.take_succ_cons, walkEnd_cons]
          exact hopen
        · rw [List.take_succ_cons, walkEnd_cons]
          exact hgylook
        · rw [List.take_succ_cons, walkWeight_cons]
          linarith
      · right
        refine ⟨gt, ?_, ?_⟩
        · rw [walkEnd_cons]
          exact hgtl
        · rw [walkWeight_cons]
          linarith

/-- Expanding an open node preserves the optimality invariant. -/
theorem expandCurrent_pathHook (P : AStarPathfinder) (startId : ℕ) (gn : Node)
    (st : SearchState) (c : ℕ) (helb : EuclidLowerBound P)
    (hinv : AStarInvCore P startId gn st) (hcr : ClosedRelaxed P st)
    (hph : PathHook P startId st) (hc : c ∈ st.openSet) :
    PathHook P startId (expandCurrent P gn st (some c)) := by
  have hnn := nonnegLinks_of_euclid P helb
  have hinv2 := (expandCurrent_invCore_measure P startId gn st c hnn hc hinv).1
  have hcr2 := expandCurrent_closedRelaxed P startId gn st c hnn hinv hcr hc
  obtain ⟨hal2, _⟩ := hinv2
  obtain ⟨_, _, hof, _⟩ := hinv
  obtain ⟨rc0, hgc0⟩ := hof c hc
  have hgc2 : (expandCurrent P gn st (some c)).gScore.lookup c =
      some ((rc0 : ℝ) : WithTop ℝ) := by
    rw [expandCurrent_some]
    exact foldRelax_gc_fixed P gn c _ _ rc0 (nonneg_neighbors P hnn c) hgc0
  have hmono : ∀ x gx', (expandCurrent P gn st (some c)).gScore.lookup x = some gx' →
      ∃ gx, st.gScore.lookup x = some gx ∧ gx' ≤ gx := by
    rw [expandCurrent_some]
    exact (foldRelax_g_mono P gn c _ _).2
  have hkeys : ∀ x, (((expandCurrent P gn st (some c)).gScore.lookup x).isSome ↔
      (st.gScore.lookup x).isSome) := by
    rw [expandCurrent_some]
    exact (foldRelax_g_mono P gn c _ _).1
  have hdecrease : ∀ (x : ℕ) (gx : ℝ), st.gScore.lookup x = some ((gx : ℝ) : WithTop ℝ) →
      ∃ gx' : ℝ, (expandCurrent P gn st (some c)).gScore.lookup x =
        some ((gx' : ℝ) : WithTop ℝ) ∧ gx' ≤ gx := by
    intro x gx hgx
    have hs : ((expandCurrent P gn st (some c)).gScore.lookup x).isSome :=
      (hkeys x).mpr (by rw [hgx]; rfl)
    obtain ⟨v, hv⟩ := Option.isSome_iff_exists.mp hs
    obtain ⟨gold, hgold, hle⟩ := hmono x v hv
    rw [hgx] at hgold
    injection hgold with hgold2
    rw [← hgold2] at hle
    obtain ⟨v', rfl⟩ : ∃ v' : ℝ, v = ((v' : ℝ) : WithTop ℝ) := by
      cases v with
      | top => exact absurd hle (by simp)
      | coe v' => exact ⟨v', rfl⟩
    exact ⟨v', hv, WithTop.coe_le_coe.mp hle⟩
  intro steps hwalk
  rcases hph steps hwalk with ⟨k, hk, hopen, gy, hgy, hgyle⟩ | ⟨gt, hgt, hgtle⟩
  · by_cases hyc : walkEnd startId (steps.take k) = c
    · -- the hook was the expanded node: continue through the closed region
      have hwdrop : WalkSteps P c (steps.drop k) := by
        have := walkSteps_drop P steps startId k hwalk
        rw [hyc] at this
        exact this
      have hgyc : gy = rc0 := by
        rw [hyc] at hgy
        rw [hgy] at hgc0
        exact WithTop.coe_eq_coe.mp (Option.some.inj hgc0)
      subst hgyc
      rcases closedWalk_hook P (expandCurrent P gn st (some c)) helb hal2 hcr2
        (steps.drop k) c gy hwdrop hgc2 with
        ⟨m, hm, hopen2, gy2, hgy2, hle2⟩ | ⟨gt2, hgt2, hle2⟩
      · left
        have hsplit : steps.take (k + m) = steps.take k ++ (steps.drop k).take m :=
          List.take_add steps k m
        have hend : walkEnd startId (steps.take (k + m)) =
            walkEnd c ((steps.drop k).take m) := by
          rw [hsplit, walkEnd_append, hyc]
        have hwt : walkWeight (steps.take (k + m)) =
            walkWeight (steps.take k) + walkWeight ((steps.drop k).take m) := by
          rw [hsplit, walkWeight_append]
        refine ⟨k + m, ?_, ?_, gy2, ?_, ?_⟩
        · have hdl : (steps.drop k).length = steps.length - k := List.length_drop k steps
          omega
        · rw [hend]
          exact hopen2
        · rw [hend]
          exact hgy2
        · rw [hwt]
          linarith
      · right
        have hend : walkEnd startId steps = walkEnd c (steps.drop k) := by
          conv_lhs => rw [← List.take_append_drop k steps]
          rw [walkEnd_append, hyc]
        have hwt : walkWeight steps =
            walkWeight (steps.take k) + walkWeight (steps.drop k) :=
          walkWeight_take_drop steps k
        refine ⟨gt2, ?_, ?_⟩
        · rw [hend]
          exact hgt2
        · rw [hwt]
          linarith
    · -- the hook survives: it stays open and its score only drops
      left
      obtain ⟨gy', hgy', hgy'le⟩ := hdecrease _ gy hgy
      refine ⟨k, hk, ?_, gy', hgy', by linarith⟩
      rw [expandCurrent_some]
      apply foldRelax_open_mono
      show walkEnd startId (steps.take k) ∈ st.openSet.erase c
      rw [List.mem_erase_of_ne hyc]
      exact hopen
  · right
    obtain ⟨gt', hgt', hgt'le⟩ := hdecrease _ gt hgt
    exact ⟨gt', hgt', by linarith⟩

/-! ## Initial optimality invariants and path reconstruction -/

/-- The initial state trivially satisfies `ClosedRelaxed`: its only
finitely scored node is the open start. -/
theorem initState_closedRelaxed (P : AStarPathfinder) (startId : ℕ) (sn gn : Node) :
    ClosedRelaxed P (initState P startId sn gn) := by
  intro n rn hopen hgn
  exfalso
  rw [initState_gScore] at hgn
  by_cases h1 : n = startId
  · subst h1
    exact hopen (List.mem_singleton.mpr rfl)
  · rw [if_neg h1] at hgn
    by_cases h2 : n ∈ P.nodes.map Prod.fst
    · rw [if_pos h2] at hgn
      injection hgn with h3
      exact absurd h3 (by simp)
    · rw [if_neg h2] at hgn
      cases hgn

/-- The initial state satisfies `GoalOpen`. -/
theorem initState_goalOpen (P : AStarPathfinder) (startId goalId : ℕ) (sn gn : Node) :
    GoalOpen goalId (initState P startId sn gn) := by
  intro r hr
  rw [initState_gScore] at hr
  by_cases h1 : goalId = startId
  · subst h1
    exact List.mem_singleton.mpr rfl
  · exfalso
    rw [if_neg h1] at hr
    by_cases h2 : goalId ∈ P.nodes.map Prod.fst
    · rw [if_pos h2] at hr
      injection hr with h3
      exact absurd h3 (by simp)
    · rw [if_neg h2] at hr
      cases hr

/-- The initial state satisfies the optimality invariant: the start
itself is the open hook of every walk. -/
theorem initState_pathHook (P : AStarPathfinder) (startId : ℕ) (sn gn : Node) :
    PathHook P startId (initState P startId sn gn) := by
  intro steps _
  left
  have he : walkEnd startId (steps.take 0) = startId := by
    rw [List.take_zero, walkEnd_nil]
  refine ⟨0, Nat.zero_le _, ?_, 0, ?_, ?_⟩
  · rw [he]
    exact List.mem_singleton.mpr rfl
  · rw [he, initState_gScore, if_pos rfl]
  · rw [List.take_zero, walkWeight_nil]

/-- Path reconstruction from any finitely scored node yields a stored
link path from the start whose weight is bounded by the node's score. -/
theorem reconstruct_correct (P : AStarPathfinder) (startId : ℕ) (st : SearchState)
    (hcfe : CameFromEdge P st) (hcft : CameFromTotal startId st)
    (hacc : CameFromAcc st) (hsz : StartZero startId st) :
    ∀ cur, Acc (fun a b => st.cameFrom.lookup b = some a) cur →
      ∀ gcur : ℝ, st.gScore.lookup cur = some ((gcur : ℝ) : WithTop ℝ) →
      ∃ p w, reconstructPathRun st.cameFrom cur = some p ∧
        LinkPath P startId cur p w ∧ w ≤ gcur := by
  intro cur hacccur
  induction hacccur with
  | intro cur hac ih =>
    intro gcur hg
    cases hl : st.cameFrom.lookup cur with
    | none =>
      by_cases hcs : cur = startId
      · subst hcs
        refine ⟨[cur], 0, reconstructPathRun_base st.cameFrom cur hl,
          LinkPath.nil cur, ?_⟩
        have h0 : st.gScore.lookup cur = some ((0 : ℝ) : WithTop ℝ) := hsz
        rw [hg] at h0
        have h1 : (gcur : WithTop ℝ) = ((0 : ℝ) : WithTop ℝ) := Option.some.inj h0
        have h2 : gcur = 0 := WithTop.coe_eq_coe.mp h1
        rw [h2]
      · have hs := hcft cur gcur hcs hg
        rw [hl] at hs
        simp at hs
    | some prev =>
      obtain ⟨d, rcp, rn, hlink, hgprev, hgcur2, hle⟩ := hcfe cur prev hl
      have hrn : rn = gcur := by
        rw [hg] at hgcur2
        exact (WithTop.coe_eq_coe.mp (Option.some.inj hgcur2)).symm
      obtain ⟨p, w, hrun, hpath, hwle⟩ := ih prev hl rcp hgprev
      refine ⟨p ++ [cur], w + d, ?_, ?_, ?_⟩
      · rw [reconstructPathRun_step st.cameFrom cur prev hl (hacc prev), hrun]
        rfl
      · exact linkPath_append_one P startId prev cur p w d hpath hlink
      · rw [← hrn] at *
        linarith

/-- On a reachable query a terminating run of the loop under the full
invariant returns a stored link path of minimum total weight. -/
theorem findPathLoop_opt (P : AStarPathfinder) (startId goalId : ℕ) (gn : Node)
    (helb : EuclidLowerBound P) (hgnn : P.nodes.lookup goalId = some gn)
    (hreach : ∃ q w, LinkPath P startId goalId q w) :
    ∀ (fuel : ℕ) (st : SearchState) (r : List ℕ),
      AStarInvCore P startId gn st → ClosedRelaxed P st → GoalOpen goalId st →
      PathHook P startId st →
      findPathLoop P goalId gn fuel st = some r →
      ∃ w, LinkPath P startId goalId r w ∧
        ∀ q w', LinkPath P startId goalId q w' → w ≤ w' := by
  have hnn := nonnegLinks_of_euclid P helb
  intro fuel
  induction fuel with
  | zero =>
    intro st r _ _ _ _ h
    have h2 : (none : Option (List ℕ)) = some r := h
    cases h2
  | succ fuel ih =>
    intro st r hinv hcr hgo hph h
    rw [findPathLoop_succ, loopIter_eq] at h
    by_cases hop : st.openSet = []
    · exfalso
      obtain ⟨q, w, hpq⟩ := hreach
      obtain ⟨steps, hw, hend, _, _⟩ := walkSteps_of_linkPath P startId goalId q w hpq
      rcases hph steps hw with ⟨k, _, hopen, _⟩ | ⟨gt, hgt, _⟩
      · rw [hop] at hopen
        cases hopen
      · rw [hend] at hgt
        have hmem := hgo gt hgt
        rw [hop] at hmem
        cases hmem
    · rw [if_neg hop] at h
      obtain ⟨c, fc, hsel, hcmem, hfc, hmin⟩ :=
        selectCurrent_isSome_of_inv P startId gn st hinv hop
      by_cases hcg : (selectCurrent st.fScore st.openSet).1 = some goalId
      · rw [if_pos hcg] at h
        have h2 : reconstructPathRun st.cameFrom goalId = some r := h
        obtain ⟨hal, hnodup, hof, hcert, hfl, hcfe, hacc, hcft, hsz⟩ := hinv
        have hcgoal : c = goalId := by
          rw [hsel] at hcg
          exact Option.some.inj hcg
        subst hcgoal
        have hgoalmem : c ∈ st.openSet := hcmem
        obtain ⟨ggoal, hggoal⟩ := hof c hgoalmem
        obtain ⟨p, wp, hrun, hpathp, hwple⟩ :=
          reconstruct_correct P startId st hcfe hcft hacc hsz c (hacc c) ggoal hggoal
        rw [hrun] at h2
        injection h2 with h3
        subst h3
        have hopt : ∀ q w', LinkPath P startId c q w' → ggoal ≤ w' := by
          intro q w' hq
          obtain ⟨steps, hwq, hendq, _, hwtq⟩ :=
            walkSteps_of_linkPath P startId c q w' hq
          rcases hph steps hwq with ⟨k, hk, hyopen, gy, hgy, hgyle⟩ |
            ⟨gt, hgt, hgtle⟩
          · obtain ⟨ndy, hndy, hfy⟩ := hfl _ gy hgy
            obtain ⟨ndg, hndg, hfg⟩ := hfl c ggoal hggoal
            have hndg2 : ndg = gn := by
              rw [hgnn] at hndg
              exact (Option.some.inj hndg).symm
            rw [hndg2, heuristic_self, add_zero] at hfg
            have hfcv : fc = ((ggoal : ℝ) : WithTop ℝ) := by
              rw [hfc] at hfg
              exact Option.some.inj hfg
            have hminy := hmin _ hyopen _ hfy
            rw [hfcv] at hminy
            have hminy2 : ggoal ≤ gy + heuristic ndy gn := WithTop.coe_le_coe.mp hminy
            have hwd : WalkSteps P (walkEnd startId (steps.take k)) (steps.drop k) :=
              walkSteps_drop P steps startId k hwq
            have hendd : walkEnd (walkEnd startId (steps.take k)) (steps.drop k) = c := by
              rw [← walkEnd_append, List.take_append_drop, hendq]
            have hcons := heuristic_le_walk P helb (steps.drop k) _ ndy hwd hndy gn
              (by rw [hendd]; exact hgnn)
            have hsplitw := walkWeight_take_drop steps k
            rw [← hwtq]
            linarith
          · rw [hendq] at hgt
            have hgteq : gt = ggoal := by
              rw [hggoal] at hgt
              exact (WithTop.coe_eq_coe.mp (Option.some.inj hgt)).symm
            rw [← hwtq, ← hgteq]
            exact hgtle
        exact ⟨wp, hpathp, fun q w' hq => le_trans hwple (hopt q w' hq)⟩
      · rw [if_neg hcg] at h
        rw [hsel] at h
        have h2 : findPathLoop P goalId gn fuel (expandCurrent P gn st (some c)) =
            some r := h
        have hcgoal : c ≠ goalId := by
          intro hcc
          apply hcg
          rw [hsel, hcc]
        exact ih (expandCurrent P gn st (some c)) r
          (expandCurrent_invCore_measure P startId gn st c hnn hcmem hinv).1
          (expandCurrent_closedRelaxed P startId gn st c hnn hinv hcr hcmem)
          (expandCurrent_goalOpen P gn st c goalId hcgoal hgo)
          (expandCurrent_pathHook P startId gn st c helb hinv hcr hph hcmem)
          h2

/-- Claim C1: on every stored graph whose link distances are nonnegative
and at least the Euclidean distance between their endpoints' mapped
coordinates, for node-map members `a`, `b` with `b` reachable from `a`,
`findPath` returns a sequence that starts at `a`, ends at `b`, has every
consecutive pair joined by a stored link, and whose total weight is the
minimum over all stored link paths from `a` to `b`. -/
theorem claim_C1_astar_shortest (P : AStarPathfinder) (a b : ℕ)
    (helb : EuclidLowerBound P)
    (ha : (P.nodes.lookup a).isSome) (hb : (P.nodes.lookup b).isSome)
    (hreach : ∃ q w, LinkPath P a b q w) :
    ∃ p w, findPath P a b = some p ∧ LinkPath P a b p w ∧
      p.head? = some a ∧ p.getLast? = some b ∧
      ∀ q w', LinkPath P a b q w' → w ≤ w' := by
  have hnn := nonnegLinks_of_euclid P helb
  obtain ⟨sn, hsn⟩ := Option.isSome_iff_exists.mp ha
  obtain ⟨gnode, hgn⟩ := Option.isSome_iff_exists.mp hb
  by_cases hab : a = b
  · subst hab
    refine ⟨[a], 0, ?_, LinkPath.nil a, rfl, rfl, ?_⟩
    · simp [findPath, hsn]
    · intro q w' hq
      exact linkPath_weight_nonneg P hnn a a q w' hq
  · have hinv0 := initState_invCore P a sn gnode hsn
    have hex := loop_terminates P a b gnode hnn (initState P a sn gnode) hinv0
    obtain ⟨r, hr⟩ := Option.isSome_iff_exists.mp (Nat.find_spec hex)
    obtain ⟨w, hpath, hmin⟩ := findPathLoop_opt P a b gnode helb hgn hreach
      (Nat.find hex) (initState P a sn gnode) r hinv0
      (initState_closedRelaxed P a sn gnode)
      (initState_goalOpen P a b sn gnode)
      (initState_pathHook P a sn gnode) hr
    refine ⟨r, w, ?_, hpath, linkPath_head P a b r w hpath,
      linkPath_getLast P a b r w hpath, hmin⟩
    unfold findPath
    rw [hsn, hgn]
    show (if a = b then some [a] else _) = some r
    rw [if_neg hab, dif_pos hex, hr]

/-- Witness for claim C1: two coincident nodes joined by one zero-length
link. -/
theorem claim_C1_astar_shortest_witness :
    ∃ p w, findPath ⟨[(1, ⟨1, 0, 0⟩), (2, ⟨2, 0, 0⟩)], [(1, [⟨2, 0⟩])]⟩ 1 2 = some p ∧
      LinkPath ⟨[(1, ⟨1, 0, 0⟩), (2, ⟨2, 0, 0⟩)], [(1, [⟨2, 0⟩])]⟩ 1 2 p w ∧
      p.head? = some 1 ∧ p.getLast? = some 2 ∧
      ∀ q w', LinkPath ⟨[(1, ⟨1, 0, 0⟩), (2, ⟨2, 0, 0⟩)], [(1, [⟨2, 0⟩])]⟩ 1 2 q w' →
        w ≤ w' :=
  claim_C1_astar_shortest ⟨[(1, ⟨1, 0, 0⟩), (2, ⟨2, 0, 0⟩)], [(1, [⟨2, 0⟩])]⟩ 1 2
    (by
      intro u v d hld
      obtain ⟨l, hl, hm⟩ := hld
      rw [lookup_cons_eq_if] at hl
      by_cases hu : u = 1
      · rw [if_pos hu] at hl
        injection hl with hl2
        subst hl2
        subst hu
        have hm2 : (⟨v, d⟩ : Link) = ⟨2, 0⟩ := List.mem_singleton.mp hm
        injection hm2 with hv hd
        subst hv
        subst hd
        refine ⟨⟨1, 0, 0⟩, ⟨2, 0, 0⟩, rfl, rfl, le_rfl, ?_⟩
        unfold heuristic
        norm_num
      · rw [if_neg hu] at hl
        simp [List.lookup] at hl)
    rfl rfl
    ⟨[1, 2], 0 + 0,
      LinkPath.cons 1 2 2 [2] 0 0
        ⟨[⟨2, 0⟩], rfl, List.mem_singleton.mpr rfl⟩ (LinkPath.nil 2)⟩
